import Mathlib

/-!
Verification of the rebate CSV restructuring core of `src/New project/app/main.py`.

The program's only real logic is `process_dataframe` (lines 81-120) together with
`validate_columns` (lines 76-78) and the column contracts (lines 47-68).  The
embedding below models a pandas `DataFrame` read with `dtype=str` and
`keep_default_na=False` (as the single caller at line 152 does): an ordered list
of column names plus rows of string cells.  Pandas column assignment, `groupby`
with `sort=True`, the stable `sort_values`, `drop` and column reindexing are
translated operation by operation; Python's code-point string comparison is
modelled by an explicit lexicographic order on character lists.
-/

namespace RebateFormatter

/-! ### Code-point lexicographic string order (Python `str` comparison) -/

def charsLt : List Char → List Char → Bool
  | _, [] => false
  | [], _ :: _ => true
  | a :: as, b :: bs =>
      if a.toNat < b.toNat then true
      else if b.toNat < a.toNat then false
      else charsLt as bs

def strLt (a b : String) : Bool := charsLt a.toList b.toList

def strLe (a b : String) : Bool := !strLt b a

theorem charsLt_irrefl : ∀ l : List Char, charsLt l l = false := by
  intro l
  induction l with
  | nil => rfl
  | cons a as ih => simp [charsLt, ih]

theorem charsLt_asymm : ∀ l₁ l₂ : List Char,
    charsLt l₁ l₂ = true → charsLt l₂ l₁ = false := by
  intro l₁
  induction l₁ with
  | nil =>
    intro l₂ h
    cases l₂ with
    | nil => simpa [charsLt] using h
    | cons b bs => simp [charsLt]
  | cons a as ih =>
    intro l₂ h
    cases l₂ with
    | nil => simp [charsLt] at h
    | cons b bs =>
      simp only [charsLt] at h ⊢
      by_cases hab : a.toNat < b.toNat
      · have hba : ¬ b.toNat < a.toNat := by omega
        simp [hab, hba]
      · by_cases hba : b.toNat < a.toNat
        · simp [hab, hba] at h
        · rw [if_neg hab, if_neg hba] at h
          rw [if_neg hba, if_neg hab]
          exact ih bs h

theorem charsLt_trans : ∀ l₁ l₂ l₃ : List Char,
    charsLt l₁ l₂ = true → charsLt l₂ l₃ = true → charsLt l₁ l₃ = true := by
  intro l₁
  induction l₁ with
  | nil =>
    intro l₂ l₃ h₁ h₂
    cases l₃ with
    | nil =>
      cases l₂ with
      | nil => simpa [charsLt] using h₁
      | cons b bs => simpa [charsLt] using h₂
    | cons c cs => simp [charsLt]
  | cons a as ih =>
    intro l₂ l₃ h₁ h₂
    cases l₂ with
    | nil => simp [charsLt] at h₁
    | cons b bs =>
      cases l₃ with
      | nil => simp [charsLt] at h₂
      | cons c cs =>
        simp only [charsLt] at h₁ h₂ ⊢
        by_cases hab : a.toNat < b.toNat
        · by_cases hbc : b.toNat < c.toNat
          · have : a.toNat < c.toNat := by omega
            simp [this]
          · by_cases hcb : c.toNat < b.toNat
            · simp [hbc, hcb] at h₂
            · have hbc' : b.toNat = c.toNat := by omega
              have : a.toNat < c.toNat := by omega
              simp [this]
        · by_cases hba : b.toNat < a.toNat
          · simp [hab, hba] at h₁
          · have hab' : a.toNat = b.toNat := by omega
            by_cases hbc : b.toNat < c.toNat
            · have : a.toNat < c.toNat := by omega
              simp [this]
            · by_cases hcb : c.toNat < b.toNat
              · simp [hbc, hcb] at h₂
              · have hac : ¬ a.toNat < c.toNat := by omega
                have hca : ¬ c.toNat < a.toNat := by omega
                simp only [if_neg hab, if_neg hba] at h₁
                simp only [if_neg hbc, if_neg hcb] at h₂
                simp only [if_neg hac, if_neg hca]
                exact ih bs cs h₁ h₂

theorem charsLt_eq_of_not_lt : ∀ l₁ l₂ : List Char,
    charsLt l₁ l₂ = false → charsLt l₂ l₁ = false → l₁ = l₂ := by
  intro l₁
  induction l₁ with
  | nil =>
    intro l₂ h₁ _
    cases l₂ with
    | nil => rfl
    | cons b bs => simp [charsLt] at h₁
  | cons a as ih =>
    intro l₂ h₁ h₂
    cases l₂ with
    | nil => simp [charsLt] at h₂
    | cons b bs =>
      simp only [charsLt] at h₁ h₂
      by_cases hab : a.toNat < b.toNat
      · simp [hab] at h₁
      · by_cases hba : b.toNat < a.toNat
        · simp [hab, hba] at h₁
          simp [hba] at h₂
        · have hchar : a = b := by
            have hn : a.toNat = b.toNat := by omega
            exact Char.eq_of_val_eq (UInt32.ext hn)
          simp only [if_neg hab, if_neg hba] at h₁
          simp only [if_neg hba, if_neg hab] at h₂
          rw [hchar, ih bs h₁ h₂]

theorem strLt_irrefl (a : String) : strLt a a = false := charsLt_irrefl _

theorem strLt_asymm {a b : String} (h : strLt a b = true) : strLt b a = false :=
  charsLt_asymm _ _ h

theorem strLt_trans {a b c : String} (h₁ : strLt a b = true) (h₂ : strLt b c = true) :
    strLt a c = true := charsLt_trans _ _ _ h₁ h₂

theorem strLt_eq_of_not_lt {a b : String} (h₁ : strLt a b = false)
    (h₂ : strLt b a = false) : a = b := by
  have := charsLt_eq_of_not_lt _ _ h₁ h₂
  cases a with
  | mk da =>
    cases b with
    | mk db =>
      apply String.ext
      simpa [String.toList] using this

/-! ### Dates

Modelled from the spec: the permissive date parser (`pandas.to_datetime` with
`errors="coerce"`, lines 89-90 of the source) accepts common month/day/year
slash forms and ISO `YYYY-MM-DD`; a value that fails to parse yields `none`
(pandas `NaT`).  `fmtDate` is `strftime("%m/%d/%Y")`: zero-padded
`MM/DD/YYYY`. -/

structure SimpleDate where
  month : Nat
  day : Nat
  year : Nat
deriving DecidableEq

def isLeap (y : Nat) : Bool := (y % 4 == 0 && y % 100 != 0) || y % 400 == 0

def daysInMonth (m y : Nat) : Nat :=
  if m == 2 then (if isLeap y then 29 else 28)
  else if m == 4 || m == 6 || m == 9 || m == 11 then 30
  else 31

def validDate (m d y : Nat) : Bool :=
  1 ≤ m && m ≤ 12 && 1 ≤ d && d ≤ daysInMonth m y && 1000 ≤ y && y ≤ 9999

def isDigitChar (c : Char) : Bool := 48 ≤ c.toNat && c.toNat ≤ 57

def digitVal (c : Char) : Nat := c.toNat - 48

def digitChar (n : Nat) : Char := Char.ofNat (48 + n)

def num2 (a b : Char) : Nat := digitVal a * 10 + digitVal b

def num4 (a b c d : Char) : Nat :=
  ((digitVal a * 10 + digitVal b) * 10 + digitVal c) * 10 + digitVal d

def mkDate (m d y : Nat) : Option SimpleDate :=
  if validDate m d y then some ⟨m, d, y⟩ else none

def parseDateChars : List Char → Option SimpleDate
  | [a, b, c, d, e, f, g, h, i, j] =>
      if c == '/' && f == '/' then
        if isDigitChar a && isDigitChar b && isDigitChar d && isDigitChar e &&
           isDigitChar g && isDigitChar h && isDigitChar i && isDigitChar j then
          mkDate (num2 a b) (num2 d e) (num4 g h i j)
        else none
      else if e == '-' && h == '-' then
        if isDigitChar a && isDigitChar b && isDigitChar c && isDigitChar d &&
           isDigitChar f && isDigitChar g && isDigitChar i && isDigitChar j then
          mkDate (num2 f g) (num2 i j) (num4 a b c d)
        else none
      else none
  | [a, b, c, d, e, f, g, h, i] =>
      if b == '/' && e == '/' then
        if isDigitChar a && isDigitChar c && isDigitChar d && isDigitChar f &&
           isDigitChar g && isDigitChar h && isDigitChar i then
          mkDate (digitVal a) (num2 c d) (num4 f g h i)
        else none
      else if c == '/' && e == '/' then
        if isDigitChar a && isDigitChar b && isDigitChar d && isDigitChar f &&
           isDigitChar g && isDigitChar h && isDigitChar i then
          mkDate (num2 a b) (digitVal d) (num4 f g h i)
        else none
      else none
  | [a, b, c, d, e, f, g, h] =>
      if b == '/' && d == '/' then
        if isDigitChar a && isDigitChar c && isDigitChar e && isDigitChar f &&
           isDigitChar g && isDigitChar h then
          mkDate (digitVal a) (digitVal c) (num4 e f g h)
        else none
      else none
  | _ => none

def parseDate (s : String) : Option SimpleDate := parseDateChars s.toList

def pad2 (n : Nat) : List Char := [digitChar (n / 10 % 10), digitChar (n % 10)]

def pad4 (n : Nat) : List Char :=
  [digitChar (n / 1000 % 10), digitChar (n / 100 % 10), digitChar (n / 10 % 10),
   digitChar (n % 10)]

def fmtDate (d : SimpleDate) : String :=
  ⟨pad2 d.month ++ '/' :: pad2 d.day ++ '/' :: pad4 d.year⟩

/-- Per-cell date normalization of lines 89-90: parse with coercion, reformat to
`MM/DD/YYYY`, unparseable (`NaT`) becomes the empty string via `fillna("")`. -/
def normalizeCell (s : String) : String :=
  match parseDate s with
  | some d => fmtDate d
  | none => ""

theorem digitVal_digitChar {k : Nat} (h : k < 10) : digitVal (digitChar k) = k := by
  interval_cases k <;> rfl

theorem isDigitChar_digitChar {k : Nat} (h : k < 10) : isDigitChar (digitChar k) = true := by
  interval_cases k <;> rfl

theorem mkDate_eq_some {m d y : Nat} {dd : SimpleDate} (h : mkDate m d y = some dd) :
    validDate m d y = true ∧ dd = ⟨m, d, y⟩ := by
  unfold mkDate at h
  by_cases hv : validDate m d y = true
  · simp [hv] at h
    exact ⟨hv, h.symm⟩
  · simp [hv] at h

theorem parseDateChars_valid {l : List Char} {dd : SimpleDate}
    (h : parseDateChars l = some dd) : validDate dd.month dd.day dd.year = true := by
  unfold parseDateChars at h
  repeat' split at h
  all_goals first
    | exact ((mkDate_eq_some h).2 ▸ (mkDate_eq_some h).1)
    | simp at h

theorem parseDate_fmtDate {m d y : Nat} (h : validDate m d y = true) :
    parseDate (fmtDate ⟨m, d, y⟩) = some ⟨m, d, y⟩ := by
  have hm : m ≤ 12 := by
    unfold validDate at h
    simp only [Bool.and_eq_true, decide_eq_true_eq] at h
    omega
  have hy : y ≤ 9999 := by
    unfold validDate at h
    simp only [Bool.and_eq_true, decide_eq_true_eq] at h
    omega
  have hd : d ≤ 31 := by
    unfold validDate at h
    simp only [Bool.and_eq_true, decide_eq_true_eq] at h
    have := h.1.1.2
    unfold daysInMonth at this
    split at this <;> [skip; split at this] <;> [split at this; skip; skip] <;> omega
  have hlt : ∀ n : Nat, n % 10 < 10 := fun n => Nat.mod_lt _ (by omega)
  have hdiv2 : ∀ n : Nat, n ≤ 99 → n / 10 % 10 = n / 10 := by
    intro n hn
    have : n / 10 < 10 := by omega
    omega
  show parseDateChars (String.toList ⟨_⟩) = _
  simp only [String.toList]
  show parseDateChars (pad2 m ++ '/' :: pad2 d ++ '/' :: pad4 y) = _
  simp only [pad2, pad4, List.cons_append, List.nil_append]
  show parseDateChars [_, _, '/', _, _, '/', _, _, _, _] = _
  simp only [parseDateChars]
  rw [isDigitChar_digitChar (hlt _), isDigitChar_digitChar (hlt _),
    isDigitChar_digitChar (hlt _), isDigitChar_digitChar (hlt _),
    isDigitChar_digitChar (hlt _), isDigitChar_digitChar (hlt _),
    isDigitChar_digitChar (hlt _), isDigitChar_digitChar (hlt _)]
  simp only [beq_self_eq_true, Bool.and_self, if_true]
  unfold num2 num4
  rw [digitVal_digitChar (hlt _), digitVal_digitChar (hlt _),
    digitVal_digitChar (hlt _), digitVal_digitChar (hlt _),
    digitVal_digitChar (hlt _), digitVal_digitChar (hlt _),
    digitVal_digitChar (hlt _), digitVal_digitChar (hlt _)]
  have em : m / 10 % 10 * 10 + m % 10 = m := by omega
  have ed : d / 10 % 10 * 10 + d % 10 = d := by omega
  have ey : ((y / 1000 % 10 * 10 + y / 100 % 10) * 10 + y / 10 % 10) * 10 + y % 10 = y := by
    omega
  rw [em, ed, ey]
  unfold mkDate
  rw [h]
  rfl

theorem parseDate_empty : parseDate "" = none := rfl

theorem normalizeCell_idem (s : String) :
    normalizeCell (normalizeCell s) = normalizeCell s := by
  unfold normalizeCell
  cases hp : parseDate s with
  | none => simp [parseDate_empty]
  | some d =>
    have hv : validDate d.month d.day d.year = true := parseDateChars_valid hp
    cases d with
    | mk m dy y => rw [parseDate_fmtDate hv]

/-! ### Tables

A pandas `DataFrame` as produced by the caller's
`pd.read_csv(..., dtype=str, keep_default_na=False)` (line 152): an ordered
list of column labels and rows of string cells (missing CSV cells read as the
empty string, never `NaN`), so the `fillna` at lines 90 and 107 and the
first-non-null semantics of `groupby(...).first()` collapse to plain
first-row/identity behaviour. -/

structure Table where
  cols : List String
  rows : List (List String)
deriving DecidableEq

/-- Well-formedness of the representation: every row has one cell per column. -/
def Table.WF (t : Table) : Prop := ∀ r ∈ t.rows, r.length = t.cols.length

instance (t : Table) : Decidable t.WF := by unfold Table.WF; infer_instance

def colIdx : List String → String → Option Nat
  | [], _ => none
  | c' :: cs, c => if c' = c then some 0 else (colIdx cs c).map (· + 1)

def getCell (cols : List String) (r : List String) (c : String) : String :=
  match colIdx cols c with
  | some i => r.getD i ""
  | none => ""

/-- Row-level effect of the pandas column assignment `df[c] = ...`: overwrite
the cell when the label exists, else append the new column's cell. -/
def assignRow (cols : List String) (c : String) (f : List String → String)
    (r : List String) : List String :=
  match colIdx cols c with
  | some i => r.set i (f r)
  | none => r ++ [f r]

/-- Pandas column assignment `df[c] = ...`, the per-cell value computed from the
row: overwrites the column in place when the label exists, otherwise appends it
as the last column. -/
def assignCol (t : Table) (c : String) (f : List String → String) : Table :=
  ⟨if c ∈ t.cols then t.cols else t.cols ++ [c], t.rows.map (assignRow t.cols c f)⟩

/-- Row-level effect of a guarded per-column rewrite loop
(`for col in cs: if col in df.columns: df[col] = g-image of df[col]`). -/
def applyCols (g : String → String) (cs : List String) (cols : List String)
    (r : List String) : List String :=
  cs.foldl (fun r' c =>
    match colIdx cols c with
    | some i => r'.set i (g (r'.getD i ""))
    | none => r') r

/-- The guarded per-column rewrite loops of lines 87-90 and 98-100. -/
def setColumns (g : String → String) (cs : List String) (t : Table) : Table :=
  cs.foldl (fun acc c =>
    if c ∈ acc.cols then assignCol acc c (fun r => g (getCell acc.cols r c)) else acc) t

/-- Pandas `drop(columns=[c])`. -/
def dropCol (t : Table) (c : String) : Table :=
  match colIdx t.cols c with
  | some i => ⟨t.cols.eraseIdx i, t.rows.map (fun r => r.eraseIdx i)⟩
  | none => t

/-- Pandas label-list indexing `df[cs]`: select the columns in the given order;
a missing label raises `KeyError`, modelled as `none`. -/
def reindex (t : Table) (cs : List String) : Option Table :=
  if cs.all (fun c => decide (c ∈ t.cols)) then
    some ⟨cs, t.rows.map (fun r => cs.map (fun c => getCell t.cols r c))⟩
  else none

/-! ### Column contracts (lines 47-68) and the Column Validator (lines 76-78) -/

def REQUIRED_COLUMNS : List String :=
  ["Rebate Name", "Level", "Lumpsum - Fee Type", "Lumpsum - Amount",
   "Lumpsum - Branch", "Lumpsum - Lumpsum Date", "Lumpsum - Pay Date"]

def DATE_COLUMNS : List String := ["Lumpsum - Lumpsum Date", "Lumpsum - Pay Date"]

def LUMPSUM_COLUMNS : List String :=
  ["Lumpsum - Fee Type", "Lumpsum - Amount", "Lumpsum - Branch",
   "Lumpsum - Lumpsum Date", "Lumpsum - Pay Date"]

def validate_columns (t : Table) : List String :=
  REQUIRED_COLUMNS.filter (fun c => decide (c ∉ t.cols))

def rebate_column : String := "Rebate Name"

def level_column : String := "Level"

/-! ### The restructuring engine (lines 81-120) -/

/-- Date normalization of lines 87-90, per date column present. -/
def normalizeDates (t : Table) : Table := setColumns normalizeCell DATE_COLUMNS t

def rebateList (t : Table) : List String :=
  t.rows.map (fun r => getCell t.cols r rebate_column)

def strLeP (a b : String) : Prop := strLe a b = true

instance : DecidableRel strLeP := fun a b => by unfold strLeP; infer_instance

/-- The distinct grouping-key values in the sorted order pandas
`groupby(sort=True)` (line 95) emits its groups in. -/
def sortedKeys (t : Table) : List String :=
  List.insertionSort strLeP (rebateList t).dedup

def firstRowOf (t : Table) (v : String) : List String :=
  (t.rows.find? (fun r => getCell t.cols r rebate_column == v)).getD []

/-- Header synthesis of lines 95-100: one row per distinct grouping-key value,
built from the group's first row (`groupby(...).first()` on all-string cells),
with the tier column overwritten to `Header` and each detail-only column
present blanked to the empty string. -/
def headerTable (t : Table) : Table :=
  setColumns (fun _ => "") LUMPSUM_COLUMNS
    (assignCol ⟨t.cols, (sortedKeys t).map (firstRowOf t)⟩ level_column
      (fun _ => "Header"))

/-- State of the caller's dataframe after `process_dataframe` returns: the
function mutates its argument in place (date columns rewritten at lines 87-90,
the tier column overwritten to `Lumpsum` at line 102); the mutation is modelled
by explicit state passing. -/
def inputAfterCall (df : Table) : Table :=
  assignCol (normalizeDates df) level_column (fun _ => "Lumpsum")

/-- Tier rank of line 106: `.map({"Header": 0, "Lumpsum": 1}).fillna(2)`. -/
def levelRank (s : String) : Nat :=
  if s = "Header" then 0 else if s = "Lumpsum" then 1 else 2

/-- Sort key of line 108: the grouping-key cell paired with the scratch
`_level_sort` value, which is exactly `levelRank` of the tier cell (the
`fillna("")` of line 107 is the identity on all-string cells). -/
def keyOf (cols : List String) (r : List String) : String × Nat :=
  (getCell cols r rebate_column, levelRank (getCell cols r level_column))

def keyLE (k₁ k₂ : String × Nat) : Prop :=
  strLt k₁.1 k₂.1 = true ∨ (k₁.1 = k₂.1 ∧ k₁.2 ≤ k₂.2)

instance : DecidableRel keyLE := fun k₁ k₂ => by unfold keyLE; infer_instance

def rowLE (cols : List String) (r₁ r₂ : List String) : Prop :=
  keyLE (keyOf cols r₁) (keyOf cols r₂)

instance (cols : List String) : DecidableRel (rowLE cols) := fun r₁ r₂ => by
  unfold rowLE
  infer_instance

def LEVEL_SORT_COL : String := "_level_sort"

structure Metrics where
  input_rows : Nat
  distinct_rebates : Nat
  header_count : Nat
  lumpsum_count : Nat
  output_rows : Nat
deriving DecidableEq

/-- The restructuring engine, lines 81-120 of the source.  The scratch column
`_level_sort` of lines 106-109 holds exactly `levelRank` of each row's tier
cell, so its creation, the stable
`sort_values(by=[rebate_column, "_level_sort"], kind="stable")` and the
following `drop` are modelled as a stable insertion sort on the computed
`keyOf` key followed by `dropCol`: the assignment overwrites a pre-existing
input column of that name in place and `drop` then removes it, so the net
column effect is `dropCol`, and the final reindex to `original_columns` raises
`KeyError` (returns `none`) exactly when the input itself had a column named
`_level_sort`.  `pd.concat` (line 105) aligns the two frames by column label;
since both carry the same label set and every later access is by label before
the final label-order reindex, the merged table is modelled with the header
frame's column order carrying both row blocks. -/
def process_dataframe (df : Table) : Option (Table × Metrics) :=
  let original_columns := df.cols
  let df1 := normalizeDates df
  let source_rows := df1.rows.length
  let distinct_rebates := (rebateList df1).dedup.length
  let header_rows := headerTable df1
  let df2 := inputAfterCall df
  let merged : Table := ⟨header_rows.cols, header_rows.rows ++ df2.rows⟩
  let sortedT : Table := ⟨merged.cols, List.insertionSort (rowLE merged.cols) merged.rows⟩
  let afterScratch := dropCol sortedT LEVEL_SORT_COL
  match reindex afterScratch original_columns with
  | some out =>
      some (out, ⟨source_rows, distinct_rebates, header_rows.rows.length, source_rows,
        out.rows.length⟩)
  | none => none

/-! ### Basic lemmas about the table operations -/

theorem colIdx_eq_none {cols : List String} {c : String} :
    colIdx cols c = none ↔ c ∉ cols := by
  induction cols with
  | nil => simp [colIdx]
  | cons c' cs ih =>
    by_cases h : c' = c
    · simp [colIdx, h]
    · simp [colIdx, h, Option.map_eq_none', ih, Ne.symm h]

theorem colIdx_isSome_of_mem {cols : List String} {c : String} (h : c ∈ cols) :
    ∃ i, colIdx cols c = some i := by
  cases hc : colIdx cols c with
  | none => exact absurd (colIdx_eq_none.mp hc) (by simp [h])
  | some i => exact ⟨i, rfl⟩

theorem colIdx_lt_length {cols : List String} {c : String} {i : Nat}
    (h : colIdx cols c = some i) : i < cols.length := by
  induction cols generalizing i with
  | nil => simp [colIdx] at h
  | cons c' cs ih =>
    by_cases hc : c' = c
    · simp only [colIdx, if_pos hc, Option.some.injEq] at h
      subst h
      simp only [List.length_cons]
      omega
    · simp only [colIdx, if_neg hc, Option.map_eq_some'] at h
      obtain ⟨j, hj, rfl⟩ := h
      have := ih hj
      simp only [List.length_cons]
      omega

theorem colIdx_getD {cols : List String} {c : String} {i : Nat}
    (h : colIdx cols c = some i) : cols.getD i "" = c := by
  induction cols generalizing i with
  | nil => simp [colIdx] at h
  | cons c' cs ih =>
    by_cases hc : c' = c
    · simp [colIdx, hc] at h
      subst h
      simpa using hc
    · simp only [colIdx, if_neg hc, Option.map_eq_some'] at h
      obtain ⟨j, hj, rfl⟩ := h
      simpa using ih hj

theorem colIdx_ne_of_ne {cols : List String} {c c' : String} {i j : Nat}
    (hcc : c ≠ c') (hi : colIdx cols c = some i) (hj : colIdx cols c' = some j) :
    i ≠ j := by
  intro hij
  apply hcc
  rw [← colIdx_getD hi, ← colIdx_getD hj, hij]

theorem colIdx_of_nodup {cols : List String} (hn : cols.Nodup) {i : Nat}
    (hi : i < cols.length) : colIdx cols (cols.getD i "") = some i := by
  induction cols generalizing i with
  | nil => simp at hi
  | cons c' cs ih =>
    cases i with
    | zero => simp [colIdx]
    | succ i' =>
      have hi' : i' < cs.length := by
        simp only [List.length_cons] at hi
        omega
      have hmem : cs.getD i' "" ∈ cs := by
        rw [List.getD_eq_getElem?_getD, List.getElem?_eq_getElem hi']
        exact List.getElem_mem _
      have hne : c' ≠ cs.getD i' "" := by
        intro hcontra
        exact (List.nodup_cons.mp hn).1 (hcontra ▸ hmem)
      simp only [List.getD_cons_succ, colIdx, if_neg hne,
        ih (List.nodup_cons.mp hn).2 hi']
      rfl

theorem getD_set_self {r : List String} {i : Nat} {v d : String} (h : i < r.length) :
    (r.set i v).getD i d = v := by
  rw [List.getD_eq_getElem?_getD, List.getElem?_set_self]
  · rfl
  · exact h

theorem getD_set_ne {r : List String} {i j : Nat} {v d : String} (h : i ≠ j) :
    (r.set i v).getD j d = r.getD j d := by
  rw [List.getD_eq_getElem?_getD, List.getElem?_set_ne h, ← List.getD_eq_getElem?_getD]

theorem getCell_of_colIdx {cols : List String} {c : String} {i : Nat}
    (h : colIdx cols c = some i) (r : List String) : getCell cols r c = r.getD i "" := by
  unfold getCell
  rw [h]

theorem getCell_of_not_mem {cols : List String} {c : String} (h : c ∉ cols)
    (r : List String) : getCell cols r c = "" := by
  unfold getCell
  rw [colIdx_eq_none.mpr h]

theorem assignRow_length {cols : List String} {c : String} {i : Nat}
    (h : colIdx cols c = some i) (f : List String → String) (r : List String) :
    (assignRow cols c f r).length = r.length := by
  unfold assignRow
  rw [h]
  exact List.length_set _ _ _

theorem getCell_assignRow_same {cols : List String} {c : String} {i : Nat}
    (h : colIdx cols c = some i) (f : List String → String) {r : List String}
    (hr : r.length = cols.length) :
    getCell cols (assignRow cols c f r) c = f r := by
  unfold assignRow
  rw [h, getCell_of_colIdx h]
  exact getD_set_self (hr ▸ colIdx_lt_length h)

theorem getCell_assignRow_other {cols : List String} {c c' : String} (hcc : c' ≠ c)
    (f : List String → String) {r : List String} (hr : r.length = cols.length) :
    getCell cols (assignRow cols c f r) c' = getCell cols r c' := by
  cases hc : colIdx cols c with
  | some i =>
    have hrow : assignRow cols c f r = r.set i (f r) := by
      unfold assignRow
      rw [hc]
    rw [hrow]
    cases hc' : colIdx cols c' with
    | some j =>
      rw [getCell_of_colIdx hc', getCell_of_colIdx hc']
      exact getD_set_ne (colIdx_ne_of_ne (Ne.symm hcc) hc hc')
    | none =>
      have hm := colIdx_eq_none.mp hc'
      rw [getCell_of_not_mem hm, getCell_of_not_mem hm]
  | none =>
    have hrow : assignRow cols c f r = r ++ [f r] := by
      unfold assignRow
      rw [hc]
    rw [hrow]
    cases hc' : colIdx cols c' with
    | some j =>
      rw [getCell_of_colIdx hc', getCell_of_colIdx hc']
      have hj : j < r.length := hr ▸ colIdx_lt_length hc'
      rw [List.getD_eq_getElem?_getD, List.getElem?_append, if_pos hj,
        ← List.getD_eq_getElem?_getD]
    | none =>
      have hm := colIdx_eq_none.mp hc'
      rw [getCell_of_not_mem hm, getCell_of_not_mem hm]

theorem mem_of_colIdx {cols : List String} {c : String} {i : Nat}
    (h : colIdx cols c = some i) : c ∈ cols := by
  by_contra hn
  rw [colIdx_eq_none.mpr hn] at h
  exact Option.noConfusion h

theorem applyCols_cons (g : String → String) (c : String) (cs cols : List String)
    (r : List String) :
    applyCols g (c :: cs) cols r =
      applyCols g cs cols
        (match colIdx cols c with
         | some i => r.set i (g (r.getD i ""))
         | none => r) := rfl

theorem applyCols_length (g : String → String) (cols : List String) :
    ∀ (cs : List String) (r : List String),
      (applyCols g cs cols r).length = r.length := by
  intro cs
  induction cs with
  | nil => intro r; rfl
  | cons c cs' ih =>
    intro r
    rw [applyCols_cons]
    cases hc : colIdx cols c with
    | some i =>
      rw [ih]
      exact List.length_set _ _ _
    | none => rw [ih]

theorem getCell_applyCols_not_mem (g : String → String) (cols : List String)
    {c : String} : ∀ (cs : List String), c ∉ cs → ∀ r : List String,
      getCell cols (applyCols g cs cols r) c = getCell cols r c := by
  intro cs
  induction cs with
  | nil => intro _ r; rfl
  | cons c0 cs' ih =>
    intro hcm r
    rw [applyCols_cons]
    have hc0 : c ≠ c0 := fun h => hcm (h ▸ List.mem_cons_self _ _)
    rw [ih (fun h => hcm (List.mem_cons_of_mem _ h))]
    cases hidx : colIdx cols c0 with
    | some i =>
      cases hc' : colIdx cols c with
      | some j =>
        rw [getCell_of_colIdx hc', getCell_of_colIdx hc']
        exact getD_set_ne (colIdx_ne_of_ne (Ne.symm hc0) hidx hc')
      | none =>
        rw [getCell_of_not_mem (colIdx_eq_none.mp hc'),
          getCell_of_not_mem (colIdx_eq_none.mp hc')]
    | none => rfl

theorem getCell_applyCols (g : String → String) (cols : List String) :
    ∀ (cs : List String), cs.Nodup → ∀ (r : List String), r.length = cols.length →
      ∀ c, getCell cols (applyCols g cs cols r) c =
        if c ∈ cs ∧ c ∈ cols then g (getCell cols r c) else getCell cols r c := by
  intro cs
  induction cs with
  | nil =>
    intro _ r _ c
    simp [applyCols]
  | cons c0 cs' ih =>
    intro hnd r hr c
    have hnd' := (List.nodup_cons.mp hnd).2
    have hc0notin := (List.nodup_cons.mp hnd).1
    rw [applyCols_cons]
    have hlen : (match colIdx cols c0 with
        | some i => r.set i (g (r.getD i ""))
        | none => r).length = cols.length := by
      cases colIdx cols c0 with
      | some i => simpa using hr
      | none => exact hr
    by_cases hceq : c = c0
    · subst hceq
      rw [getCell_applyCols_not_mem g cols cs' hc0notin]
      cases hidx : colIdx cols c with
      | some i =>
        have hmem : c ∈ cols := mem_of_colIdx hidx
        rw [if_pos ⟨List.mem_cons_self _ _, hmem⟩, getCell_of_colIdx hidx,
          getCell_of_colIdx hidx]
        exact getD_set_self (hr ▸ colIdx_lt_length hidx)
      | none =>
        have hnm : c ∉ cols := colIdx_eq_none.mp hidx
        rw [if_neg (fun hand => hnm hand.2)]
    · rw [ih hnd' _ hlen c]
      have hcells : getCell cols
          (match colIdx cols c0 with
           | some i => r.set i (g (r.getD i ""))
           | none => r) c = getCell cols r c := by
        cases hidx : colIdx cols c0 with
        | some i =>
          cases hc' : colIdx cols c with
          | some j =>
            rw [getCell_of_colIdx hc', getCell_of_colIdx hc']
            exact getD_set_ne (colIdx_ne_of_ne (fun h => hceq h.symm) hidx hc')
          | none =>
            rw [getCell_of_not_mem (colIdx_eq_none.mp hc'),
              getCell_of_not_mem (colIdx_eq_none.mp hc')]
        | none => rfl
      rw [hcells]
      have hiff : (c ∈ cs' ∧ c ∈ cols) ↔ (c ∈ c0 :: cs' ∧ c ∈ cols) := by
        simp [List.mem_cons, hceq]
      by_cases hcond : c ∈ cs' ∧ c ∈ cols
      · rw [if_pos hcond, if_pos (hiff.mp hcond)]
      · rw [if_neg hcond, if_neg (fun h => hcond (hiff.mpr h))]

theorem assignCol_cols_of_mem {t : Table} {c : String} (h : c ∈ t.cols)
    (f : List String → String) : (assignCol t c f).cols = t.cols := by
  simp [assignCol, h]

theorem assignCol_rows (t : Table) (c : String) (f : List String → String) :
    (assignCol t c f).rows = t.rows.map (assignRow t.cols c f) := rfl

theorem setColumns_cons (g : String → String) (c : String) (cs : List String)
    (t : Table) :
    setColumns g (c :: cs) t =
      setColumns g cs
        (if c ∈ t.cols then assignCol t c (fun r => g (getCell t.cols r c)) else t) :=
  rfl

theorem setColumns_cols (g : String → String) :
    ∀ (cs : List String) (t : Table), (setColumns g cs t).cols = t.cols := by
  intro cs
  induction cs with
  | nil => intro t; rfl
  | cons c cs' ih =>
    intro t
    rw [setColumns_cons]
    by_cases hm : c ∈ t.cols
    · rw [if_pos hm, ih, assignCol_cols_of_mem hm]
    · rw [if_neg hm, ih]

theorem setColumns_rows (g : String → String) :
    ∀ (cs : List String) (t : Table),
      (setColumns g cs t).rows = t.rows.map (applyCols g cs t.cols) := by
  intro cs
  induction cs with
  | nil =>
    intro t
    show t.rows = _
    rw [List.map_congr_left (fun (r : List String) _ => (rfl : applyCols g [] t.cols r = r))]
    exact (List.map_id _).symm
  | cons c cs' ih =>
    intro t
    rw [setColumns_cons]
    by_cases hm : c ∈ t.cols
    · rw [if_pos hm, ih, assignCol_cols_of_mem hm, assignCol_rows, List.map_map]
      apply List.map_congr_left
      intro r _
      obtain ⟨i, hi⟩ := colIdx_isSome_of_mem hm
      show applyCols g cs' t.cols (assignRow t.cols c _ r) = applyCols g (c :: cs') t.cols r
      rw [applyCols_cons]
      have hrow : assignRow t.cols c (fun r' => g (getCell t.cols r' c)) r
          = r.set i (g (r.getD i "")) := by
        unfold assignRow
        rw [hi]
        show r.set i (g (getCell t.cols r c)) = r.set i (g (r.getD i ""))
        rw [getCell_of_colIdx hi]
      rw [hrow, hi]
    · rw [if_neg hm, ih]
      apply List.map_congr_left
      intro r _
      rw [applyCols_cons, colIdx_eq_none.mpr hm]

theorem setColumns_WF (g : String → String) (cs : List String) {t : Table}
    (h : t.WF) : (setColumns g cs t).WF := by
  unfold Table.WF at h ⊢
  rw [setColumns_rows, setColumns_cols]
  intro r hr
  rw [List.mem_map] at hr
  obtain ⟨r0, hr0, rfl⟩ := hr
  rw [applyCols_length]
  exact h r0 hr0

theorem dropCol_of_not_mem {t : Table} {c : String} (h : c ∉ t.cols) :
    dropCol t c = t := by
  unfold dropCol
  rw [colIdx_eq_none.mpr h]

theorem reindex_of_forall_mem {t : Table} {cs : List String}
    (h : ∀ c ∈ cs, c ∈ t.cols) :
    reindex t cs =
      some ⟨cs, t.rows.map (fun r => cs.map (fun c => getCell t.cols r c))⟩ := by
  unfold reindex
  have hall : (cs.all fun c => decide (c ∈ t.cols)) = true := by
    rw [List.all_eq_true]
    intro c hc
    exact decide_eq_true (h c hc)
  rw [if_pos hall]

theorem getCell_cons_self (c0 : String) (cs : List String) (x : String)
    (xs : List String) : getCell (c0 :: cs) (x :: xs) c0 = x := by
  unfold getCell colIdx
  simp

theorem getCell_cons_ne {c0 c : String} (h : c0 ≠ c) (cs : List String) (x : String)
    (xs : List String) : getCell (c0 :: cs) (x :: xs) c = getCell cs xs c := by
  unfold getCell
  rw [show colIdx (c0 :: cs) c = (colIdx cs c).map (· + 1) from by simp [colIdx, h]]
  cases hidx : colIdx cs c with
  | some j => rfl
  | none => rfl

theorem map_getCell_self : ∀ (cols : List String), cols.Nodup →
    ∀ (r : List String), r.length = cols.length →
      cols.map (fun c => getCell cols r c) = r := by
  intro cols
  induction cols with
  | nil =>
    intro _ r hr
    rw [List.eq_nil_of_length_eq_zero hr]
    rfl
  | cons c0 cs ih =>
    intro hnd r hr
    cases r with
    | nil => simp at hr
    | cons x xs =>
      have hnd' := (List.nodup_cons.mp hnd).2
      have hc0 := (List.nodup_cons.mp hnd).1
      simp only [List.map_cons]
      congr 1
      · exact getCell_cons_self c0 cs x xs
      · have hstep : ∀ c ∈ cs, getCell (c0 :: cs) (x :: xs) c = getCell cs xs c := by
          intro c hcm
          refine getCell_cons_ne (fun h => hc0 ?_) cs x xs
          rw [h]
          exact hcm
        rw [List.map_congr_left hstep]
        apply ih hnd' xs
        simpa using hr

/-! ### The sort key order -/

theorem keyLE_refl (k : String × Nat) : keyLE k k := Or.inr ⟨rfl, le_refl _⟩

theorem keyLE_trans {k₁ k₂ k₃ : String × Nat} (h₁ : keyLE k₁ k₂) (h₂ : keyLE k₂ k₃) :
    keyLE k₁ k₃ := by
  rcases h₁ with h₁ | ⟨e₁, n₁⟩
  · rcases h₂ with h₂ | ⟨e₂, n₂⟩
    · exact Or.inl (strLt_trans h₁ h₂)
    · exact Or.inl (by rw [← e₂]; exact h₁)
  · rcases h₂ with h₂ | ⟨e₂, n₂⟩
    · exact Or.inl (by rw [e₁]; exact h₂)
    · exact Or.inr ⟨e₁.trans e₂, n₁.trans n₂⟩

theorem keyLE_total (k₁ k₂ : String × Nat) : keyLE k₁ k₂ ∨ keyLE k₂ k₁ := by
  cases h₁ : strLt k₁.1 k₂.1 with
  | true => exact Or.inl (Or.inl h₁)
  | false =>
    cases h₂ : strLt k₂.1 k₁.1 with
    | true => exact Or.inr (Or.inl h₂)
    | false =>
      have he := strLt_eq_of_not_lt h₁ h₂
      rcases Nat.le_total k₁.2 k₂.2 with hn | hn
      · exact Or.inl (Or.inr ⟨he, hn⟩)
      · exact Or.inr (Or.inr ⟨he.symm, hn⟩)

theorem keyLE_antisymm {k₁ k₂ : String × Nat} (h₁ : keyLE k₁ k₂) (h₂ : keyLE k₂ k₁) :
    k₁ = k₂ := by
  rcases h₁ with h₁ | ⟨e₁, n₁⟩
  · rcases h₂ with h₂ | ⟨e₂, n₂⟩
    · rw [strLt_asymm h₁] at h₂
      exact Bool.noConfusion h₂
    · rw [e₂, strLt_irrefl] at h₁
      exact Bool.noConfusion h₁
  · rcases h₂ with h₂ | ⟨e₂, n₂⟩
    · rw [e₁, strLt_irrefl] at h₂
      exact Bool.noConfusion h₂
    · cases k₁ with
      | mk a x =>
        cases k₂ with
        | mk b y =>
          simp only at e₁ n₁ n₂
          rw [e₁]
          rw [Nat.le_antisymm n₁ n₂]

instance rowLE_total_inst (cols : List String) : IsTotal (List String) (rowLE cols) :=
  ⟨fun _ _ => keyLE_total _ _⟩

instance rowLE_trans_inst (cols : List String) : IsTrans (List String) (rowLE cols) :=
  ⟨fun _ _ _ => keyLE_trans⟩

theorem strLeP_iff {a b : String} : strLeP a b ↔ strLt b a = false := by
  unfold strLeP strLe
  cases strLt b a <;> simp

instance strLeP_total_inst : IsTotal String strLeP := by
  constructor
  intro a b
  cases h : strLt b a with
  | false => exact Or.inl (strLeP_iff.mpr h)
  | true => exact Or.inr (strLeP_iff.mpr (strLt_asymm h))

instance strLeP_trans_inst : IsTrans String strLeP := by
  constructor
  intro a b c h₁ h₂
  rw [strLeP_iff] at h₁ h₂ ⊢
  cases hbc : strLt b c with
  | true =>
    cases hca : strLt c a with
    | true => exact absurd (strLt_trans hbc hca) (by rw [h₁]; simp)
    | false => rfl
  | false =>
    have hcb : strLt c b = false := h₂
    have hbceq := strLt_eq_of_not_lt hbc hcb
    rw [← hbceq]
    exact h₁

theorem pairwise_of_all {α : Type} {R : α → α → Prop} :
    ∀ l : List α, (∀ a ∈ l, ∀ b ∈ l, R a b) → l.Pairwise R := by
  intro l
  induction l with
  | nil => exact fun _ => List.Pairwise.nil
  | cons a t ih =>
    intro h
    constructor
    · intro b hb
      exact h a (List.mem_cons_self _ _) b (List.mem_cons_of_mem _ hb)
    · exact ih (fun x hx y hy =>
        h x (List.mem_cons_of_mem _ hx) y (List.mem_cons_of_mem _ hy))

/-! ### Stability of insertion sort on the row key -/

theorem filter_orderedInsert (cols : List String) (k : String × Nat)
    (a : List String) :
    ∀ l : List (List String),
      (List.orderedInsert (rowLE cols) a l).filter (fun r => decide (keyOf cols r = k))
        = if keyOf cols a = k then
            a :: l.filter (fun r => decide (keyOf cols r = k))
          else l.filter (fun r => decide (keyOf cols r = k)) := by
  intro l
  induction l with
  | nil =>
    by_cases ha : keyOf cols a = k
    · simp [List.orderedInsert, ha]
    · simp [List.orderedInsert, ha]
  | cons b t ih =>
    simp only [List.orderedInsert]
    by_cases hab : rowLE cols a b
    · rw [if_pos hab]
      by_cases ha : keyOf cols a = k <;> by_cases hb : keyOf cols b = k <;>
        simp [List.filter_cons, ha, hb]
    · rw [if_neg hab, List.filter_cons]
      by_cases ha : keyOf cols a = k
      · have hb : ¬ keyOf cols b = k := by
          intro hb
          apply hab
          unfold rowLE
          rw [ha, hb]
          exact keyLE_refl k
        rw [ih, if_pos ha, if_pos ha, if_neg (by simpa using hb), List.filter_cons,
          if_neg (by simpa using hb)]
      · rw [ih, if_neg ha, if_neg ha, List.filter_cons]

theorem filter_insertionSort (cols : List String) (k : String × Nat) :
    ∀ l : List (List String),
      (List.insertionSort (rowLE cols) l).filter (fun r => decide (keyOf cols r = k))
        = l.filter (fun r => decide (keyOf cols r = k)) := by
  intro l
  induction l with
  | nil => rfl
  | cons a t ih =>
    show (List.orderedInsert _ a (List.insertionSort _ t)).filter _ = _
    rw [filter_orderedInsert, ih, List.filter_cons]
    by_cases ha : keyOf cols a = k
    · rw [if_pos ha, if_pos (by simpa using ha)]
    · rw [if_neg ha, if_neg (by simpa using ha)]

/-! ### A stably sorted list is determined by its per-key filters -/

theorem sorted_eq_of_filter_eq (cols : List String) :
    ∀ l₁ l₂ : List (List String), List.Sorted (rowLE cols) l₁ →
      List.Sorted (rowLE cols) l₂ →
      (∀ k : String × Nat,
        l₁.filter (fun r => decide (keyOf cols r = k))
          = l₂.filter (fun r => decide (keyOf cols r = k))) →
      l₁ = l₂ := by
  intro l₁
  induction l₁ with
  | nil =>
    intro l₂ _ _ hf
    cases l₂ with
    | nil => rfl
    | cons b t₂ =>
      exfalso
      have hb := hf (keyOf cols b)
      rw [List.filter_nil, List.filter_cons, if_pos (by simp)] at hb
      exact List.noConfusion hb
  | cons a t₁ ih =>
    intro l₂ h₁ h₂ hf
    cases l₂ with
    | nil =>
      exfalso
      have ha := hf (keyOf cols a)
      rw [List.filter_nil, List.filter_cons, if_pos (by simp)] at ha
      exact List.noConfusion ha
    | cons b t₂ =>
      have hs₁ := List.sorted_cons.mp h₁
      have hs₂ := List.sorted_cons.mp h₂
      have hkey : keyOf cols a = keyOf cols b := by
        by_contra hne
        have ha2 : a ∈ b :: t₂ := by
          have hfa := hf (keyOf cols a)
          have hmem : a ∈ (b :: t₂).filter
              (fun r => decide (keyOf cols r = keyOf cols a)) := by
            rw [← hfa, List.filter_cons, if_pos (by simp)]
            exact List.mem_cons_self _ _
          exact (List.mem_filter.mp hmem).1
        have hb1 : b ∈ a :: t₁ := by
          have hfb := hf (keyOf cols b)
          have hmem : b ∈ (a :: t₁).filter
              (fun r => decide (keyOf cols r = keyOf cols b)) := by
            rw [hfb, List.filter_cons, if_pos (by simp)]
            exact List.mem_cons_self _ _
          exact (List.mem_filter.mp hmem).1
        rcases List.mem_cons.mp ha2 with hab | ha2'
        · rw [hab] at hne
          exact hne rfl
        · rcases List.mem_cons.mp hb1 with hba | hb1'
          · rw [hba] at hne
            exact hne rfl
          · exact hne (keyLE_antisymm (hs₁.1 b hb1') (hs₂.1 a ha2'))
      have hfa := hf (keyOf cols a)
      rw [List.filter_cons, List.filter_cons, if_pos (by simp),
        if_pos (decide_eq_true hkey.symm)] at hfa
      injection hfa with hhead htail
      subst hhead
      congr 1
      apply ih t₂ hs₁.2 hs₂.2
      intro k
      by_cases hk : k = keyOf cols a
      · rw [hk]
        exact htail
      · have hcur := hf k
        rw [List.filter_cons, List.filter_cons,
          if_neg (by simp only [decide_eq_true_eq]; exact fun hc => hk hc.symm),
          if_neg (by simp only [decide_eq_true_eq]; exact fun hc => hk hc.symm)] at hcur
        exact hcur

/-! ### Canonical form of the sorted output: per-key blocks in key order -/

def keyBlock (cols : List String) (l : List (List String)) (v : String) :
    List (List String) :=
  l.filter (fun r => decide (keyOf cols r = (v, 0)))
    ++ l.filter (fun r => decide (keyOf cols r = (v, 1)))
    ++ l.filter (fun r => decide (keyOf cols r = (v, 2)))

def canonicalRows (cols : List String) (keys : List String)
    (l : List (List String)) : List (List String) :=
  match keys with
  | [] => []
  | v :: ks => keyBlock cols l v ++ canonicalRows cols ks l

theorem key_of_mem_filter {cols : List String} {l : List (List String)}
    {k : String × Nat} {r : List String}
    (h : r ∈ l.filter (fun r => decide (keyOf cols r = k))) : keyOf cols r = k :=
  of_decide_eq_true (List.mem_filter.mp h).2

theorem rowLE_of_keys {cols : List String} {a b : List String} {k₁ k₂ : String × Nat}
    (ha : keyOf cols a = k₁) (hb : keyOf cols b = k₂) (h : keyLE k₁ k₂) :
    rowLE cols a b := by
  unfold rowLE
  rw [ha, hb]
  exact h

theorem key_fst_of_mem_keyBlock {cols : List String} {l : List (List String)}
    {v : String} {r : List String} (h : r ∈ keyBlock cols l v) :
    (keyOf cols r).1 = v := by
  unfold keyBlock at h
  rcases List.mem_append.mp h with h | h
  · rcases List.mem_append.mp h with h | h
    · rw [key_of_mem_filter h]
    · rw [key_of_mem_filter h]
  · rw [key_of_mem_filter h]

theorem key_fst_of_mem_canonicalRows {cols : List String} {l : List (List String)}
    {r : List String} : ∀ {keys : List String}, r ∈ canonicalRows cols keys l →
      (keyOf cols r).1 ∈ keys := by
  intro keys
  induction keys with
  | nil =>
    intro h
    simp [canonicalRows] at h
  | cons v ks ih =>
    intro h
    rcases List.mem_append.mp h with h | h
    · exact List.mem_cons.mpr (Or.inl (key_fst_of_mem_keyBlock h))
    · exact List.mem_cons_of_mem _ (ih h)

theorem levelRank_le_two (s : String) : levelRank s ≤ 2 := by
  unfold levelRank
  repeat' split
  all_goals omega

theorem keyOf_snd_le_two (cols : List String) (r : List String) :
    (keyOf cols r).2 ≤ 2 := levelRank_le_two _

theorem sorted_keyBlock (cols : List String) (l : List (List String)) (v : String) :
    List.Sorted (rowLE cols) (keyBlock cols l v) := by
  have hconst : ∀ k : String × Nat,
      ∀ a ∈ l.filter (fun r => decide (keyOf cols r = k)),
      ∀ b ∈ l.filter (fun r => decide (keyOf cols r = k)), rowLE cols a b := by
    intro k a ha b hb
    exact rowLE_of_keys (key_of_mem_filter ha) (key_of_mem_filter hb) (keyLE_refl k)
  have hcross : ∀ (i j : Nat), i ≤ j → ∀ a b : List String,
      a ∈ l.filter (fun r => decide (keyOf cols r = (v, i))) →
      b ∈ l.filter (fun r => decide (keyOf cols r = (v, j))) → rowLE cols a b := by
    intro i j hij a b ha hb
    exact rowLE_of_keys (key_of_mem_filter ha) (key_of_mem_filter hb)
      (Or.inr ⟨rfl, hij⟩)
  unfold keyBlock
  refine List.pairwise_append.mpr ⟨List.pairwise_append.mpr
    ⟨pairwise_of_all _ (hconst (v, 0)), pairwise_of_all _ (hconst (v, 1)), ?_⟩,
    pairwise_of_all _ (hconst (v, 2)), ?_⟩
  · intro a ha b hb
    exact hcross 0 1 (by omega) a b ha hb
  · intro a ha b hb
    rcases List.mem_append.mp ha with ha | ha
    · exact hcross 0 2 (by omega) a b ha hb
    · exact hcross 1 2 (by omega) a b ha hb

theorem sorted_canonicalRows (cols : List String) (l : List (List String)) :
    ∀ keys : List String, keys.Pairwise (fun a b => strLt a b = true) →
      List.Sorted (rowLE cols) (canonicalRows cols keys l) := by
  intro keys
  induction keys with
  | nil => intro _; exact List.sorted_nil
  | cons v ks ih =>
    intro hp
    have hp' := List.pairwise_cons.mp hp
    show List.Sorted _ (keyBlock cols l v ++ canonicalRows cols ks l)
    refine List.pairwise_append.mpr ⟨sorted_keyBlock cols l v, ih hp'.2, ?_⟩
    intro a ha b hb
    have ha1 : (keyOf cols a).1 = v := key_fst_of_mem_keyBlock ha
    have hb1 : (keyOf cols b).1 ∈ ks := key_fst_of_mem_canonicalRows hb
    exact Or.inl (by rw [ha1]; exact hp'.1 _ hb1)

theorem filter_pair_eq (cols : List String) (l : List (List String))
    (k k' : String × Nat) :
    l.filter (fun r => decide (keyOf cols r = k) && decide (keyOf cols r = k'))
      = if k = k' then l.filter (fun r => decide (keyOf cols r = k)) else [] := by
  by_cases hkk : k = k'
  · rw [if_pos hkk]
    apply List.filter_congr
    intro r _
    rw [hkk]
    cases h : decide (keyOf cols r = k') <;> simp
  · rw [if_neg hkk, List.filter_eq_nil_iff]
    intro r _
    simp only [Bool.and_eq_true, decide_eq_true_eq, not_and]
    intro h1 h2
    exact hkk (h1.symm.trans h2)

theorem filter_keyBlock (cols : List String) (l : List (List String))
    (k : String × Nat) (v : String) :
    (keyBlock cols l v).filter (fun r => decide (keyOf cols r = k))
      = if k.1 = v ∧ k.2 ≤ 2 then l.filter (fun r => decide (keyOf cols r = k))
        else [] := by
  unfold keyBlock
  rw [List.filter_append, List.filter_append, List.filter_filter,
    List.filter_filter, List.filter_filter, filter_pair_eq, filter_pair_eq,
    filter_pair_eq]
  by_cases hkv : k.1 = v
  · by_cases h2 : k.2 ≤ 2
    · have hcases : k = (v, 0) ∨ k = (v, 1) ∨ k = (v, 2) := by
        rcases k with ⟨k1, k2⟩
        simp only at hkv h2
        subst hkv
        interval_cases k2
        · exact Or.inl rfl
        · exact Or.inr (Or.inl rfl)
        · exact Or.inr (Or.inr rfl)
      rcases hcases with hk | hk | hk
      · rw [hk, if_pos rfl, if_neg (by simp), if_neg (by simp),
          if_pos ⟨rfl, by omega⟩, List.append_nil, List.append_nil]
      · rw [hk, if_neg (by simp), if_pos rfl, if_neg (by simp),
          if_pos ⟨rfl, by omega⟩, List.nil_append, List.append_nil]
      · rw [hk, if_neg (by simp), if_neg (by simp), if_pos rfl,
          if_pos ⟨rfl, by omega⟩, List.nil_append, List.nil_append]
    · have hne : k ≠ (v, 0) ∧ k ≠ (v, 1) ∧ k ≠ (v, 2) := by
        refine ⟨?_, ?_, ?_⟩ <;> intro hk <;> rw [hk] at h2 <;> simp at h2
      rw [if_neg hne.1, if_neg hne.2.1, if_neg hne.2.2,
        if_neg (fun hand => h2 hand.2)]
      rfl
  · have hne : k ≠ (v, 0) ∧ k ≠ (v, 1) ∧ k ≠ (v, 2) := by
      refine ⟨?_, ?_, ?_⟩ <;> intro hk <;> rw [hk] at hkv <;> exact hkv rfl
    rw [if_neg hne.1, if_neg hne.2.1, if_neg hne.2.2,
      if_neg (fun hand => hkv hand.1)]
    rfl

theorem filter_canonicalRows (cols : List String) (l : List (List String))
    (k : String × Nat) :
    ∀ keys : List String, keys.Nodup →
      (canonicalRows cols keys l).filter (fun r => decide (keyOf cols r = k))
        = if k.1 ∈ keys ∧ k.2 ≤ 2 then
            l.filter (fun r => decide (keyOf cols r = k))
          else [] := by
  intro keys
  induction keys with
  | nil =>
    intro _
    simp [canonicalRows]
  | cons v ks ih =>
    intro hnd
    show (keyBlock cols l v ++ canonicalRows cols ks l).filter _ = _
    rw [List.filter_append, filter_keyBlock, ih (List.nodup_cons.mp hnd).2]
    by_cases hkv : k.1 = v
    · have hnotks : k.1 ∉ ks := by
        rw [hkv]
        exact (List.nodup_cons.mp hnd).1
      by_cases h2 : k.2 ≤ 2
      · rw [if_pos ⟨hkv, h2⟩, if_neg (fun hand => hnotks hand.1),
          if_pos ⟨by rw [hkv]; exact List.mem_cons_self _ _, h2⟩, List.append_nil]
      · rw [if_neg (fun hand => h2 hand.2), if_neg (fun hand => h2 hand.2),
          if_neg (fun hand => h2 hand.2), List.nil_append]
    · rw [if_neg (fun hand => hkv hand.1), List.nil_append]
      by_cases hks : k.1 ∈ ks ∧ k.2 ≤ 2
      · rw [if_pos hks, if_pos ⟨List.mem_cons_of_mem _ hks.1, hks.2⟩]
      · rw [if_neg hks, if_neg (fun hand => hks
          ⟨(List.mem_cons.mp hand.1).resolve_left (fun h => hkv h), hand.2⟩)]

theorem insertionSort_eq_canonical (cols : List String) (l : List (List String))
    (keys : List String) (hnd : keys.Nodup)
    (hsort : keys.Pairwise (fun a b => strLt a b = true))
    (hcov : ∀ r ∈ l, (keyOf cols r).1 ∈ keys) :
    List.insertionSort (rowLE cols) l = canonicalRows cols keys l := by
  apply sorted_eq_of_filter_eq cols
  · exact List.sorted_insertionSort _ _
  · exact sorted_canonicalRows cols l keys hsort
  · intro k
    rw [filter_insertionSort, filter_canonicalRows cols l k keys hnd]
    by_cases hk : k.1 ∈ keys ∧ k.2 ≤ 2
    · rw [if_pos hk]
    · rw [if_neg hk]
      rw [List.filter_eq_nil_iff]
      intro r hr
      simp only [decide_eq_true_eq]
      intro hkr
      apply hk
      constructor
      · rw [← hkr]
        exact hcov r hr
      · rw [← hkr]
        exact keyOf_snd_le_two cols r

/-! ### Facts about the engine pipeline on a valid input -/

/-- The synthetic header row for one grouping-key value: the group's first row
with the tier column overwritten to `Header` and the detail-only columns
blanked (lines 95-100, row level). -/
def mkHeaderRow (t : Table) (v : String) : List String :=
  applyCols (fun _ => "") LUMPSUM_COLUMNS t.cols
    (assignRow t.cols level_column (fun _ => "Header") (firstRowOf t v))

/-- The group's detail rows in input order: the mutated input rows (tier
`Lumpsum`, dates normalized) whose grouping-key cell equals `v`. -/
def lumpsFor (df : Table) (v : String) : List (List String) :=
  (inputAfterCall df).rows.filter
    (fun r => decide (getCell df.cols r rebate_column = v))

theorem validate_columns_eq_nil {t : Table} :
    validate_columns t = [] ↔ ∀ c ∈ REQUIRED_COLUMNS, c ∈ t.cols := by
  unfold validate_columns
  rw [List.filter_eq_nil_iff]
  constructor
  · intro h c hc
    have := h c hc
    simpa using this
  · intro h c hc
    simpa using h c hc

theorem normalizeDates_cols (t : Table) : (normalizeDates t).cols = t.cols :=
  setColumns_cols _ _ _

theorem normalizeDates_WF {t : Table} (h : t.WF) : (normalizeDates t).WF :=
  setColumns_WF _ _ h

theorem normalizeDates_length (t : Table) :
    (normalizeDates t).rows.length = t.rows.length := by
  unfold normalizeDates
  rw [setColumns_rows]
  exact List.length_map _ _

theorem rebateList_normalizeDates (df : Table) (hwf : df.WF) :
    rebateList (normalizeDates df) = rebateList df := by
  unfold rebateList
  rw [normalizeDates_cols]
  unfold normalizeDates
  rw [setColumns_rows, List.map_map]
  apply List.map_congr_left
  intro r hr
  show getCell df.cols (applyCols normalizeCell DATE_COLUMNS df.cols r)
      rebate_column = getCell df.cols r rebate_column
  rw [getCell_applyCols normalizeCell df.cols DATE_COLUMNS (by decide) r
    (hwf r hr)]
  rw [if_neg (fun hand => (by decide : rebate_column ∉ DATE_COLUMNS) hand.1)]

theorem inputAfterCall_cols {df : Table} (hlev : level_column ∈ df.cols) :
    (inputAfterCall df).cols = df.cols := by
  unfold inputAfterCall
  rw [assignCol_cols_of_mem, normalizeDates_cols]
  rw [normalizeDates_cols]
  exact hlev

theorem inputAfterCall_rows (df : Table) :
    (inputAfterCall df).rows =
      (normalizeDates df).rows.map
        (assignRow df.cols level_column (fun _ => "Lumpsum")) := by
  unfold inputAfterCall
  rw [assignCol_rows, normalizeDates_cols]

theorem inputAfterCall_length (df : Table) :
    (inputAfterCall df).rows.length = df.rows.length := by
  rw [inputAfterCall_rows, List.length_map]
  exact normalizeDates_length df

theorem inputAfterCall_WF {df : Table} (hlev : level_column ∈ df.cols)
    (hwf : df.WF) : (inputAfterCall df).WF := by
  unfold Table.WF
  rw [inputAfterCall_rows, inputAfterCall_cols hlev]
  intro r hr
  rw [List.mem_map] at hr
  obtain ⟨r0, hr0, rfl⟩ := hr
  obtain ⟨i, hi⟩ := colIdx_isSome_of_mem hlev
  rw [assignRow_length hi]
  have hl := (normalizeDates_WF hwf) r0 hr0
  rw [normalizeDates_cols] at hl
  exact hl

theorem getCell_inputAfterCall_level {df : Table} (hlev : level_column ∈ df.cols)
    (hwf : df.WF) {r : List String} (hr : r ∈ (inputAfterCall df).rows) :
    getCell df.cols r level_column = "Lumpsum" := by
  rw [inputAfterCall_rows] at hr
  rw [List.mem_map] at hr
  obtain ⟨r0, hr0, rfl⟩ := hr
  obtain ⟨i, hi⟩ := colIdx_isSome_of_mem hlev
  have hlen : r0.length = df.cols.length := by
    have := (normalizeDates_WF hwf) r0 hr0
    rw [normalizeDates_cols] at this
    exact this
  exact getCell_assignRow_same hi _ hlen

theorem getCell_inputAfterCall_rebate {df : Table} (hwf : df.WF)
    {r0 : List String} (hr0 : r0 ∈ (normalizeDates df).rows) :
    getCell df.cols (assignRow df.cols level_column (fun _ => "Lumpsum") r0)
      rebate_column = getCell df.cols r0 rebate_column := by
  have hlen : r0.length = df.cols.length := by
    have := (normalizeDates_WF hwf) r0 hr0
    rw [normalizeDates_cols] at this
    exact this
  exact getCell_assignRow_other (by decide) _ hlen

theorem rebateList_inputAfterCall (df : Table) (hlev : level_column ∈ df.cols)
    (hwf : df.WF) : rebateList (inputAfterCall df) = rebateList df := by
  unfold rebateList
  rw [inputAfterCall_cols hlev, inputAfterCall_rows, List.map_map]
  have hcongr : ∀ r0 ∈ (normalizeDates df).rows,
      ((fun r => getCell df.cols r rebate_column) ∘
        assignRow df.cols level_column (fun _ => "Lumpsum")) r0
        = getCell df.cols r0 rebate_column := by
    intro r0 hr0
    exact getCell_inputAfterCall_rebate hwf hr0
  rw [List.map_congr_left hcongr]
  have h2 := rebateList_normalizeDates df hwf
  unfold rebateList at h2
  rw [normalizeDates_cols] at h2
  exact h2

theorem sortedKeys_nodup (t : Table) : (sortedKeys t).Nodup :=
  (List.perm_insertionSort _ _).symm.nodup (List.nodup_dedup _)

theorem mem_sortedKeys {t : Table} {v : String} :
    v ∈ sortedKeys t ↔ v ∈ rebateList t := by
  unfold sortedKeys
  rw [(List.perm_insertionSort _ _).mem_iff, List.mem_dedup]

theorem sortedKeys_length (t : Table) :
    (sortedKeys t).length = (rebateList t).dedup.length :=
  (List.perm_insertionSort _ _).length_eq

theorem sortedKeys_pairwise (t : Table) :
    (sortedKeys t).Pairwise (fun a b => strLt a b = true) := by
  have hs : List.Sorted strLeP (sortedKeys t) :=
    List.sorted_insertionSort strLeP _
  have hn : (sortedKeys t).Nodup := sortedKeys_nodup t
  have hand := List.Pairwise.and hs hn
  apply hand.imp
  intro a b hab
  rcases hab with ⟨hle, hne⟩
  have hba : strLt b a = false := strLeP_iff.mp hle
  cases h : strLt a b with
  | true => rfl
  | false => exact absurd (strLt_eq_of_not_lt h hba) hne

theorem firstRowOf_spec {t : Table} {v : String} (h : v ∈ rebateList t) :
    firstRowOf t v ∈ t.rows ∧
      getCell t.cols (firstRowOf t v) rebate_column = v := by
  have hex : ∃ r ∈ t.rows, getCell t.cols r rebate_column = v := by
    unfold rebateList at h
    rw [List.mem_map] at h
    obtain ⟨r, hr, hrv⟩ := h
    exact ⟨r, hr, hrv⟩
  obtain ⟨r, hr, hrv⟩ := hex
  unfold firstRowOf
  cases hf : t.rows.find? (fun r => getCell t.cols r rebate_column == v) with
  | none =>
    exfalso
    have := List.find?_eq_none.mp hf r hr
    simp [hrv] at this
  | some r0 =>
    constructor
    · exact List.mem_of_find?_eq_some hf
    · have := List.find?_some hf
      simpa using this

theorem headerTable_cols {t : Table} (hlev : level_column ∈ t.cols) :
    (headerTable t).cols = t.cols := by
  unfold headerTable
  have hlev' : level_column ∈
      (⟨t.cols, (sortedKeys t).map (firstRowOf t)⟩ : Table).cols := hlev
  rw [setColumns_cols, assignCol_cols_of_mem hlev']

theorem headerTable_rows {t : Table} (hlev : level_column ∈ t.cols) :
    (headerTable t).rows = (sortedKeys t).map (mkHeaderRow t) := by
  unfold headerTable
  have hlev' : level_column ∈
      (⟨t.cols, (sortedKeys t).map (firstRowOf t)⟩ : Table).cols := hlev
  rw [setColumns_rows, assignCol_cols_of_mem hlev', assignCol_rows, List.map_map,
    List.map_map]
  apply List.map_congr_left
  intro v _
  rfl

theorem mkHeaderRow_length {t : Table} {v : String} (hv : v ∈ rebateList t)
    (hlev : level_column ∈ t.cols) (hwf : t.WF) :
    (mkHeaderRow t v).length = t.cols.length := by
  unfold mkHeaderRow
  rw [applyCols_length]
  obtain ⟨i, hi⟩ := colIdx_isSome_of_mem hlev
  rw [assignRow_length hi]
  exact hwf _ (firstRowOf_spec hv).1

theorem getCell_mkHeaderRow {t : Table} {v : String} (hv : v ∈ rebateList t)
    (hlev : level_column ∈ t.cols) (hwf : t.WF) (c : String) :
    getCell t.cols (mkHeaderRow t v) c =
      if c = level_column then "Header"
      else if c ∈ LUMPSUM_COLUMNS ∧ c ∈ t.cols then ""
      else getCell t.cols (firstRowOf t v) c := by
  unfold mkHeaderRow
  obtain ⟨i, hi⟩ := colIdx_isSome_of_mem hlev
  have hfrlen : (firstRowOf t v).length = t.cols.length :=
    hwf _ (firstRowOf_spec hv).1
  have hrowlen : (assignRow t.cols level_column (fun _ => "Header")
      (firstRowOf t v)).length = t.cols.length := by
    rw [assignRow_length hi]
    exact hfrlen
  rw [getCell_applyCols (fun _ => "") t.cols LUMPSUM_COLUMNS (by decide) _
    hrowlen c]
  by_cases hcl : c = level_column
  · subst hcl
    rw [if_neg (fun hand =>
        (by decide : level_column ∉ LUMPSUM_COLUMNS) hand.1), if_pos rfl]
    exact getCell_assignRow_same hi _ hfrlen
  · rw [if_neg hcl]
    by_cases hcll : c ∈ LUMPSUM_COLUMNS ∧ c ∈ t.cols
    · rw [if_pos hcll, if_pos hcll]
    · rw [if_neg hcll, if_neg hcll]
      exact getCell_assignRow_other hcl _ hfrlen

theorem mkHeaderRow_rebate {t : Table} {v : String} (hv : v ∈ rebateList t)
    (hlev : level_column ∈ t.cols) (hwf : t.WF) :
    getCell t.cols (mkHeaderRow t v) rebate_column = v := by
  rw [getCell_mkHeaderRow hv hlev hwf, if_neg (by decide),
    if_neg (fun hand => (by decide : rebate_column ∉ LUMPSUM_COLUMNS) hand.1)]
  exact (firstRowOf_spec hv).2

theorem mkHeaderRow_level {t : Table} {v : String} (hv : v ∈ rebateList t)
    (hlev : level_column ∈ t.cols) (hwf : t.WF) :
    getCell t.cols (mkHeaderRow t v) level_column = "Header" := by
  rw [getCell_mkHeaderRow hv hlev hwf, if_pos rfl]

theorem keyOf_mkHeaderRow {t : Table} {v : String} (hv : v ∈ rebateList t)
    (hlev : level_column ∈ t.cols) (hwf : t.WF) :
    keyOf t.cols (mkHeaderRow t v) = (v, 0) := by
  unfold keyOf
  rw [mkHeaderRow_rebate hv hlev hwf, mkHeaderRow_level hv hlev hwf,
    show levelRank "Header" = 0 from by decide]

theorem keyOf_inputAfterCall {df : Table} (hlev : level_column ∈ df.cols)
    (hwf : df.WF) {r : List String} (hr : r ∈ (inputAfterCall df).rows) :
    keyOf df.cols r = (getCell df.cols r rebate_column, 1) := by
  unfold keyOf
  rw [getCell_inputAfterCall_level hlev hwf hr,
    show levelRank "Lumpsum" = 1 from by decide]

theorem filter_map_eq_single {α β : Type} [DecidableEq α] (f : α → β)
    (p : β → Bool) :
    ∀ ks : List α, ks.Nodup → ∀ v, v ∈ ks →
      (∀ w ∈ ks, p (f w) = decide (w = v)) →
      (ks.map f).filter p = [f v] := by
  intro ks
  induction ks with
  | nil =>
    intro _ v hv _
    cases hv
  | cons w ks' ih =>
    intro hnd v hv hp
    rw [List.map_cons, List.filter_cons]
    rcases List.mem_cons.mp hv with rfl | hv'
    · rw [if_pos (by rw [hp v (List.mem_cons_self _ _)]; simp)]
      have hrest : (ks'.map f).filter p = [] := by
        rw [List.filter_eq_nil_iff]
        intro b hb
        rw [List.mem_map] at hb
        obtain ⟨w', hw', rfl⟩ := hb
        rw [hp w' (List.mem_cons_of_mem _ hw')]
        simp only [decide_eq_true_eq]
        intro heq
        apply (List.nodup_cons.mp hnd).1
        rw [← heq]
        exact hw'
      rw [hrest]
    · have hwv : w ≠ v := by
        intro h
        apply (List.nodup_cons.mp hnd).1
        rw [h]
        exact hv'
      rw [if_neg (by rw [hp w (List.mem_cons_self _ _)]; simp [hwv])]
      exact ih (List.nodup_cons.mp hnd).2 v hv'
        (fun w' hw' => hp w' (List.mem_cons_of_mem _ hw'))

theorem required_mem {df : Table} (hv : validate_columns df = []) :
    rebate_column ∈ df.cols ∧ level_column ∈ df.cols := by
  have h := validate_columns_eq_nil.mp hv
  exact ⟨h rebate_column (by decide), h level_column (by decide)⟩

theorem filter_headerTable_at_zero {t : Table} (hlev : level_column ∈ t.cols)
    (hwf : t.WF) {v : String} (hv : v ∈ sortedKeys t) :
    ((headerTable t).rows).filter (fun r => decide (keyOf t.cols r = (v, 0)))
      = [mkHeaderRow t v] := by
  rw [headerTable_rows hlev]
  apply filter_map_eq_single _ _ _ (sortedKeys_nodup t) v hv
  intro w hw
  rw [keyOf_mkHeaderRow (mem_sortedKeys.mp hw) hlev hwf]
  apply decide_eq_decide.mpr
  constructor
  · intro h
    exact congrArg Prod.fst h
  · intro h
    rw [h]

theorem filter_headerTable_ne_zero {t : Table} (hlev : level_column ∈ t.cols)
    (hwf : t.WF) (k : String × Nat) (hk : k.2 ≠ 0) :
    ((headerTable t).rows).filter (fun r => decide (keyOf t.cols r = k)) = [] := by
  rw [headerTable_rows hlev, List.filter_eq_nil_iff]
  intro b hb
  rw [List.mem_map] at hb
  obtain ⟨w, hw, rfl⟩ := hb
  rw [keyOf_mkHeaderRow (mem_sortedKeys.mp hw) hlev hwf]
  simp only [decide_eq_true_eq]
  intro heq
  exact hk (by rw [← heq])

theorem filter_inputAfterCall_at_one {df : Table} (hlev : level_column ∈ df.cols)
    (hwf : df.WF) (v : String) :
    ((inputAfterCall df).rows).filter
        (fun r => decide (keyOf df.cols r = (v, 1))) = lumpsFor df v := by
  unfold lumpsFor
  apply List.filter_congr
  intro r hr
  rw [keyOf_inputAfterCall hlev hwf hr]
  apply decide_eq_decide.mpr
  constructor
  · intro h
    exact congrArg Prod.fst h
  · intro h
    rw [h]

theorem filter_inputAfterCall_ne_one {df : Table} (hlev : level_column ∈ df.cols)
    (hwf : df.WF) (k : String × Nat) (hk : k.2 ≠ 1) :
    ((inputAfterCall df).rows).filter
        (fun r => decide (keyOf df.cols r = k)) = [] := by
  rw [List.filter_eq_nil_iff]
  intro r hr
  rw [keyOf_inputAfterCall hlev hwf hr]
  simp only [decide_eq_true_eq]
  intro heq
  exact hk (by rw [← heq])

/-- Output row shape of one group: the header row immediately followed by the
group's detail rows, groups in key order. -/
def expandWith (hdr : String → List String) (grp : String → List (List String)) :
    List String → List (List String)
  | [] => []
  | v :: ks => hdr v :: (grp v ++ expandWith hdr grp ks)

theorem canonicalRows_eq_expandWith {cols : List String} {l : List (List String)}
    {hdr : String → List String} {grp : String → List (List String)} :
    ∀ keys : List String,
      (∀ v ∈ keys, keyBlock cols l v = hdr v :: grp v) →
      canonicalRows cols keys l = expandWith hdr grp keys := by
  intro keys
  induction keys with
  | nil => intro _; rfl
  | cons v ks ih =>
    intro h
    show keyBlock cols l v ++ canonicalRows cols ks l = _
    rw [h v (List.mem_cons_self _ _), ih (fun w hw => h w (List.mem_cons_of_mem _ hw))]
    rfl

theorem keyBlock_merged {df : Table} (hv : validate_columns df = [])
    (hwf : df.WF) {v : String}
    (hvk : v ∈ sortedKeys (normalizeDates df)) :
    keyBlock df.cols
        ((headerTable (normalizeDates df)).rows ++ (inputAfterCall df).rows) v
      = mkHeaderRow (normalizeDates df) v :: lumpsFor df v := by
  obtain ⟨hreb, hlev⟩ := required_mem hv
  have hlev' : level_column ∈ (normalizeDates df).cols := by
    rw [normalizeDates_cols]
    exact hlev
  have hwf' : (normalizeDates df).WF := normalizeDates_WF hwf
  have hcols := normalizeDates_cols df
  unfold keyBlock
  rw [List.filter_append, List.filter_append, List.filter_append]
  have h0 : ((headerTable (normalizeDates df)).rows).filter
      (fun r => decide (keyOf df.cols r = (v, 0)))
      = [mkHeaderRow (normalizeDates df) v] := by
    rw [← hcols]
    exact filter_headerTable_at_zero hlev' hwf' hvk
  have h1 : ((headerTable (normalizeDates df)).rows).filter
      (fun r => decide (keyOf df.cols r = (v, 1))) = [] := by
    rw [← hcols]
    exact filter_headerTable_ne_zero hlev' hwf' (v, 1) (by omega)
  have h2 : ((headerTable (normalizeDates df)).rows).filter
      (fun r => decide (keyOf df.cols r = (v, 2))) = [] := by
    rw [← hcols]
    exact filter_headerTable_ne_zero hlev' hwf' (v, 2) (by omega)
  have g0 := filter_inputAfterCall_ne_one hlev hwf (v, 0) (by omega)
  have g1 := filter_inputAfterCall_at_one hlev hwf v
  have g2 := filter_inputAfterCall_ne_one hlev hwf (v, 2) (by omega)
  rw [h0, h1, h2, g0, g1, g2]
  simp

theorem merged_coverage {df : Table} (hv : validate_columns df = [])
    (hwf : df.WF) :
    ∀ r ∈ (headerTable (normalizeDates df)).rows ++ (inputAfterCall df).rows,
      (keyOf df.cols r).1 ∈ sortedKeys (normalizeDates df) := by
  obtain ⟨hreb, hlev⟩ := required_mem hv
  have hlev' : level_column ∈ (normalizeDates df).cols := by
    rw [normalizeDates_cols]
    exact hlev
  have hwf' := normalizeDates_WF hwf
  have hcols := normalizeDates_cols df
  intro r hr
  rcases List.mem_append.mp hr with hr | hr
  · rw [headerTable_rows hlev'] at hr
    rw [List.mem_map] at hr
    obtain ⟨w, hw, rfl⟩ := hr
    have hw' : w ∈ rebateList (normalizeDates df) := mem_sortedKeys.mp hw
    have hk : keyOf df.cols (mkHeaderRow (normalizeDates df) w) = (w, 0) := by
      rw [← hcols]
      exact keyOf_mkHeaderRow hw' hlev' hwf'
    rw [hk]
    exact hw
  · rw [keyOf_inputAfterCall hlev hwf hr]
    show getCell df.cols r rebate_column ∈ _
    rw [mem_sortedKeys]
    have hmem : getCell df.cols r rebate_column ∈ rebateList (inputAfterCall df) := by
      unfold rebateList
      rw [inputAfterCall_cols hlev]
      exact List.mem_map_of_mem _ hr
    rw [rebateList_inputAfterCall df hlev hwf] at hmem
    rw [rebateList_normalizeDates df hwf]
    exact hmem

theorem merged_WF {df : Table} (hv : validate_columns df = []) (hwf : df.WF) :
    ∀ r ∈ (headerTable (normalizeDates df)).rows ++ (inputAfterCall df).rows,
      r.length = df.cols.length := by
  obtain ⟨hreb, hlev⟩ := required_mem hv
  have hlev' : level_column ∈ (normalizeDates df).cols := by
    rw [normalizeDates_cols]
    exact hlev
  have hwf' := normalizeDates_WF hwf
  have hcols := normalizeDates_cols df
  intro r hr
  rcases List.mem_append.mp hr with hr | hr
  · rw [headerTable_rows hlev'] at hr
    rw [List.mem_map] at hr
    obtain ⟨w, hw, rfl⟩ := hr
    have hl := mkHeaderRow_length (mem_sortedKeys.mp hw) hlev' hwf'
    rw [hcols] at hl
    exact hl
  · have hl := inputAfterCall_WF hlev hwf r hr
    rw [inputAfterCall_cols hlev] at hl
    exact hl

theorem canonicalRows_merged {df : Table} (hv : validate_columns df = [])
    (hwf : df.WF) :
    canonicalRows df.cols (sortedKeys (normalizeDates df))
        ((headerTable (normalizeDates df)).rows ++ (inputAfterCall df).rows)
      = expandWith (mkHeaderRow (normalizeDates df)) (lumpsFor df)
          (sortedKeys (normalizeDates df)) := by
  apply canonicalRows_eq_expandWith
  intro v hv'
  exact keyBlock_merged hv hwf hv'

/-- Characterization of the engine on a valid input (all required columns
present, no duplicate labels, well-formed rows, no reserved `_level_sort`
label): it returns the groups in ascending grouping-key order, each group a
synthetic header row followed by the group's retagged input rows in input
order, together with the metrics record. -/
theorem process_spec (df : Table) (hv : validate_columns df = [])
    (hnd : df.cols.Nodup) (hwf : df.WF) (hsc : LEVEL_SORT_COL ∉ df.cols) :
    process_dataframe df = some
      (⟨df.cols,
        expandWith (mkHeaderRow (normalizeDates df)) (lumpsFor df)
          (sortedKeys (normalizeDates df))⟩,
       ⟨df.rows.length, (rebateList df).dedup.length,
        (sortedKeys (normalizeDates df)).length, df.rows.length,
        (sortedKeys (normalizeDates df)).length + df.rows.length⟩) := by
  obtain ⟨hreb, hlev⟩ := required_mem hv
  have hlev' : level_column ∈ (normalizeDates df).cols := by
    rw [normalizeDates_cols]
    exact hlev
  have hwf' := normalizeDates_WF hwf
  have hcols := normalizeDates_cols df
  have hmcols : (headerTable (normalizeDates df)).cols = df.cols := by
    rw [headerTable_cols hlev', hcols]
  have hsort : List.insertionSort (rowLE df.cols)
      ((headerTable (normalizeDates df)).rows ++ (inputAfterCall df).rows)
      = canonicalRows df.cols (sortedKeys (normalizeDates df))
          ((headerTable (normalizeDates df)).rows ++ (inputAfterCall df).rows) := by
    apply insertionSort_eq_canonical
    · exact sortedKeys_nodup _
    · exact sortedKeys_pairwise _
    · exact merged_coverage hv hwf
  have hperm : (canonicalRows df.cols (sortedKeys (normalizeDates df))
      ((headerTable (normalizeDates df)).rows ++ (inputAfterCall df).rows)).Perm
      ((headerTable (normalizeDates df)).rows ++ (inputAfterCall df).rows) := by
    rw [← hsort]
    exact List.perm_insertionSort _ _
  unfold process_dataframe
  dsimp only
  rw [hmcols, hsort]
  have hsc2 : LEVEL_SORT_COL ∉ (⟨df.cols, canonicalRows df.cols
      (sortedKeys (normalizeDates df)) ((headerTable (normalizeDates df)).rows
        ++ (inputAfterCall df).rows)⟩ : Table).cols := hsc
  rw [dropCol_of_not_mem hsc2]
  have hall : ∀ c ∈ df.cols, c ∈ (⟨df.cols, canonicalRows df.cols
      (sortedKeys (normalizeDates df)) ((headerTable (normalizeDates df)).rows
        ++ (inputAfterCall df).rows)⟩ : Table).cols := fun c hc => hc
  rw [reindex_of_forall_mem hall]
  have hmapid : (canonicalRows df.cols (sortedKeys (normalizeDates df))
      ((headerTable (normalizeDates df)).rows ++ (inputAfterCall df).rows)).map
        (fun r => df.cols.map (fun c => getCell df.cols r c))
      = canonicalRows df.cols (sortedKeys (normalizeDates df))
          ((headerTable (normalizeDates df)).rows ++ (inputAfterCall df).rows) := by
    have h1 : ∀ r ∈ canonicalRows df.cols (sortedKeys (normalizeDates df))
        ((headerTable (normalizeDates df)).rows ++ (inputAfterCall df).rows),
        (fun r => df.cols.map (fun c => getCell df.cols r c)) r = id r := by
      intro r hr
      exact map_getCell_self df.cols hnd r (merged_WF hv hwf r (hperm.subset hr))
    rw [List.map_congr_left h1, List.map_id]
  have hhlen : (headerTable (normalizeDates df)).rows.length
      = (sortedKeys (normalizeDates df)).length := by
    rw [headerTable_rows hlev']
    exact List.length_map _ _
  have hinlen : (normalizeDates df).rows.length = df.rows.length :=
    normalizeDates_length df
  have hdlen : (rebateList (normalizeDates df)).dedup.length
      = (rebateList df).dedup.length := by
    rw [rebateList_normalizeDates df hwf]
  have hlencanon : (canonicalRows df.cols (sortedKeys (normalizeDates df))
      ((headerTable (normalizeDates df)).rows ++ (inputAfterCall df).rows)).length
      = (sortedKeys (normalizeDates df)).length + df.rows.length := by
    rw [hperm.length_eq, List.length_append, hhlen, inputAfterCall_length]
  dsimp only
  rw [hmapid, hinlen, hdlen, hhlen, hlencanon, canonicalRows_merged hv hwf]

/-! ### Example tables used as concrete witnesses -/

def exampleTable : Table :=
  ⟨["Rebate Name", "Level", "Lumpsum - Fee Type", "Lumpsum - Amount",
    "Lumpsum - Branch", "Lumpsum - Lumpsum Date", "Lumpsum - Pay Date"],
   [["X", "", "Flat", "100", "NY", "1/2/2024", "2/1/2024"],
    ["X", "", "Flat", "200", "LA", "bad", ""],
    ["Y", "", "Pct", "10", "SF", "2024-03-04", "3/4/2024"]]⟩

def exampleBABC : Table :=
  ⟨["Rebate Name", "Level", "Lumpsum - Fee Type", "Lumpsum - Amount",
    "Lumpsum - Branch", "Lumpsum - Lumpsum Date", "Lumpsum - Pay Date"],
   [["B", "", "", "", "", "", ""],
    ["A", "", "", "", "", "", ""],
    ["B", "", "", "", "", "", ""],
    ["C", "", "", "", "", "", ""]]⟩

def exampleScratchCol : Table :=
  ⟨["Rebate Name", "Level", "Lumpsum - Fee Type", "Lumpsum - Amount",
    "Lumpsum - Branch", "Lumpsum - Lumpsum Date", "Lumpsum - Pay Date",
    "_level_sort"],
   [["X", "", "", "", "", "", "", "keep me"]]⟩

def headerRebates (t : Table) : List String :=
  (t.rows.filter (fun r => decide (getCell t.cols r level_column = "Header"))).map
    (fun r => getCell t.cols r rebate_column)

/-! ### Claim theorems -/

/-- C4: for every table, `validate_columns` returns exactly the subset of the
seven required column names absent from the table's column set, in the
contract's declared order; the result is empty iff all required columns are
present; and removing k distinct required columns from a valid table yields a
result of length k containing each removed name. -/
theorem validate_columns_spec :
    REQUIRED_COLUMNS.length = 7 ∧
    (∀ t : Table, ∀ c, c ∈ validate_columns t ↔
      (c ∈ REQUIRED_COLUMNS ∧ c ∉ t.cols)) ∧
    (∀ t : Table, List.Sublist (validate_columns t) REQUIRED_COLUMNS) ∧
    (∀ t : Table, validate_columns t = [] ↔ ∀ c ∈ REQUIRED_COLUMNS, c ∈ t.cols) ∧
    (∀ (t : Table) (S : List String), validate_columns t = [] → S.Nodup →
      S ⊆ REQUIRED_COLUMNS →
      (validate_columns ⟨t.cols.filter (fun c => decide (c ∉ S)), t.rows⟩).length
          = S.length ∧
      ∀ c ∈ S,
        c ∈ validate_columns ⟨t.cols.filter (fun c => decide (c ∉ S)), t.rows⟩) := by
  have hmem : ∀ t : Table, ∀ c, c ∈ validate_columns t ↔
      (c ∈ REQUIRED_COLUMNS ∧ c ∉ t.cols) := by
    intro t c
    unfold validate_columns
    rw [List.mem_filter]
    simp
  refine ⟨rfl, hmem, ?_, fun t => validate_columns_eq_nil, ?_⟩
  · intro t
    exact List.filter_sublist _
  · intro t S hval hSnd hSsub
    have hall := validate_columns_eq_nil.mp hval
    have hmem2 : ∀ c, c ∈ validate_columns
        ⟨t.cols.filter (fun c => decide (c ∉ S)), t.rows⟩ ↔
        (c ∈ REQUIRED_COLUMNS ∧ c ∈ S) := by
      intro c
      rw [hmem]
      constructor
      · intro ⟨hreq, hnfilter⟩
        refine ⟨hreq, ?_⟩
        by_contra hns
        apply hnfilter
        show c ∈ t.cols.filter _
        rw [List.mem_filter]
        exact ⟨hall c hreq, by simpa using hns⟩
      · intro ⟨hreq, hs⟩
        refine ⟨hreq, ?_⟩
        intro hcf
        have := (List.mem_filter.mp hcf).2
        simp only [decide_eq_true_eq] at this
        exact this hs
    constructor
    · have hperm : (validate_columns
          ⟨t.cols.filter (fun c => decide (c ∉ S)), t.rows⟩).Perm S := by
        apply List.perm_of_nodup_nodup_toFinset_eq
        · exact (List.filter_sublist _).nodup (by decide)
        · exact hSnd
        · ext c
          simp only [List.mem_toFinset]
          rw [hmem2 c]
          constructor
          · intro h
            exact h.2
          · intro h
            exact ⟨hSsub h, h⟩
      exact hperm.length_eq
    · intro c hc
      exact (hmem2 c).mpr ⟨hSsub hc, hc⟩

/-- Closed witness for C4 at a concrete valid table and a concrete removal. -/
theorem validate_columns_spec_witness :
    validate_columns exampleTable = [] ∧
    (validate_columns ⟨exampleTable.cols.filter
        (fun c => decide (c ∉ ["Level", "Lumpsum - Branch"])),
      exampleTable.rows⟩).length = 2 := by
  constructor
  · exact (validate_columns_spec.2.2.2.1 exampleTable).mpr (by decide)
  · exact (validate_columns_spec.2.2.2.2 exampleTable
      ["Level", "Lumpsum - Branch"] ((validate_columns_spec.2.2.2.1
        exampleTable).mpr (by decide)) (by decide) (by decide)).1

/-- C9: date normalization is idempotent.  Normalizing a canonically formatted
valid date yields the same string, an unparseable value normalizes to the
empty string, the empty string normalizes to the empty string, and normalizing
twice equals normalizing once. -/
theorem normalizeCell_idempotent :
    (∀ m d y : Nat, validDate m d y = true →
      normalizeCell (fmtDate ⟨m, d, y⟩) = fmtDate ⟨m, d, y⟩) ∧
    (∀ s : String, parseDate s = none → normalizeCell s = "") ∧
    normalizeCell "" = "" ∧
    (∀ s : String, normalizeCell (normalizeCell s) = normalizeCell s) := by
  refine ⟨?_, ?_, rfl, normalizeCell_idem⟩
  · intro m d y hvalid
    unfold normalizeCell
    rw [parseDate_fmtDate hvalid]
  · intro s hs
    unfold normalizeCell
    rw [hs]

/-- Closed witness for C9 at concrete values. -/
theorem normalizeCell_idempotent_witness :
    normalizeCell (fmtDate ⟨1, 2, 2024⟩) = fmtDate ⟨1, 2, 2024⟩ ∧
    normalizeCell "not a date" = "" ∧
    normalizeCell (normalizeCell "1/2/2024") = normalizeCell "1/2/2024" := by
  refine ⟨normalizeCell_idempotent.1 1 2 2024 (by decide),
    normalizeCell_idempotent.2.1 "not a date" (by decide),
    normalizeCell_idempotent.2.2.2 "1/2/2024"⟩

theorem getD_eq_getElem_of_lt {α : Type} (l : List α) (d : α) {i : Nat}
    (h : i < l.length) : l.getD i d = l[i] := by
  rw [List.getD_eq_getElem?_getD, List.getElem?_eq_getElem h]
  rfl

theorem getD_mem {α : Type} {l : List α} {i : Nat} (h : i < l.length) (d : α) :
    l.getD i d ∈ l := by
  rw [getD_eq_getElem_of_lt l d h]
  exact List.getElem_mem _

theorem getD_map_of_lt {α β : Type} (f : α → β) (l : List α) (d₁ : α) (d₂ : β)
    {i : Nat} (h : i < l.length) : (l.map f).getD i d₂ = f (l.getD i d₁) := by
  rw [getD_eq_getElem_of_lt _ d₂ (by rw [List.length_map]; exact h),
    getD_eq_getElem_of_lt _ d₁ h]
  exact List.getElem_map _

theorem getCell_normalizeDates (t : Table) (hwf : t.WF) {i : Nat}
    (hi : i < t.rows.length) (c : String) :
    getCell t.cols ((normalizeDates t).rows.getD i []) c =
      if c ∈ DATE_COLUMNS ∧ c ∈ t.cols then
        normalizeCell (getCell t.cols (t.rows.getD i []) c)
      else getCell t.cols (t.rows.getD i []) c := by
  unfold normalizeDates
  rw [setColumns_rows, getD_map_of_lt _ _ [] _ hi]
  exact getCell_applyCols normalizeCell t.cols DATE_COLUMNS (by decide) _
    (hwf _ (getD_mem hi [])) c

/-- C5: for each of the two declared date columns present in the table, date
normalization rewrites every cell whose value parses as a date to canonical
`MM/DD/YYYY` text and every cell whose value fails to parse to the empty
string; it is a total function (no cell can raise), absent date columns are
skipped (the column set is unchanged), and non-date cells are untouched. -/
theorem date_normalization_spec (t : Table) (hnd : t.cols.Nodup) (hwf : t.WF) :
    (normalizeDates t).cols = t.cols ∧
    (normalizeDates t).rows.length = t.rows.length ∧
    ∀ i, i < t.rows.length → ∀ c,
      getCell t.cols ((normalizeDates t).rows.getD i []) c =
        if c ∈ DATE_COLUMNS ∧ c ∈ t.cols then
          (match parseDate (getCell t.cols (t.rows.getD i []) c) with
           | some d => fmtDate d
           | none => "")
        else getCell t.cols (t.rows.getD i []) c := by
  refine ⟨normalizeDates_cols t, normalizeDates_length t, ?_⟩
  intro i hi c
  exact getCell_normalizeDates t hwf hi c

/-- Closed witness for C5: a parseable cell is canonicalized, an unparseable
one is blanked, and a non-date column is untouched. -/
theorem date_normalization_spec_witness :
    getCell exampleTable.cols ((normalizeDates exampleTable).rows.getD 0 [])
        "Lumpsum - Lumpsum Date" = "01/02/2024" ∧
    getCell exampleTable.cols ((normalizeDates exampleTable).rows.getD 1 [])
        "Lumpsum - Lumpsum Date" = "" ∧
    getCell exampleTable.cols ((normalizeDates exampleTable).rows.getD 1 [])
        "Lumpsum - Amount" = "200" := by
  have h := date_normalization_spec exampleTable (by decide) (by decide)
  refine ⟨?_, ?_, ?_⟩
  · rw [h.2.2 0 (by decide) "Lumpsum - Lumpsum Date"]
    decide
  · rw [h.2.2 1 (by decide) "Lumpsum - Lumpsum Date"]
    decide
  · rw [h.2.2 1 (by decide) "Lumpsum - Amount"]
    decide

/-- C10: `process_dataframe` mutates its input table in place rather than
working on a copy: after a call, every tier cell of the caller's table has
been overwritten to `Lumpsum` and both date columns have been rewritten to
their normalized values, so an input with any other tier value is not left
unchanged by the call. -/
theorem input_mutation_spec (df : Table) (hv : validate_columns df = [])
    (hwf : df.WF) :
    (inputAfterCall df).cols = df.cols ∧
    (inputAfterCall df).rows.length = df.rows.length ∧
    (∀ r ∈ (inputAfterCall df).rows, getCell df.cols r level_column = "Lumpsum") ∧
    (∀ i, i < df.rows.length → ∀ c ∈ DATE_COLUMNS, c ∈ df.cols →
      getCell df.cols ((inputAfterCall df).rows.getD i []) c
        = normalizeCell (getCell df.cols (df.rows.getD i []) c)) ∧
    ((∃ r ∈ df.rows, getCell df.cols r level_column ≠ "Lumpsum") →
      inputAfterCall df ≠ df) := by
  obtain ⟨hreb, hlev⟩ := required_mem hv
  have hlevels : ∀ r ∈ (inputAfterCall df).rows,
      getCell df.cols r level_column = "Lumpsum" :=
    fun r hr => getCell_inputAfterCall_level hlev hwf hr
  refine ⟨inputAfterCall_cols hlev, inputAfterCall_length df, hlevels, ?_, ?_⟩
  · intro i hi c hcd hcm
    have hi' : i < (normalizeDates df).rows.length := by
      rw [normalizeDates_length]
      exact hi
    rw [inputAfterCall_rows, getD_map_of_lt _ _ [] _ hi']
    have hlen : ((normalizeDates df).rows.getD i []).length = df.cols.length := by
      have := (normalizeDates_WF hwf) _ (getD_mem hi' [])
      rw [normalizeDates_cols] at this
      exact this
    have hcl : c ≠ level_column := by
      rcases (by decide : ∀ x ∈ DATE_COLUMNS, x ≠ level_column) c hcd with h
      exact h
    rw [getCell_assignRow_other hcl _ hlen, getCell_normalizeDates df hwf hi c,
      if_pos ⟨hcd, hcm⟩]
  · intro ⟨r, hr, hrlev⟩ heq
    obtain ⟨i, hi, hri⟩ := List.mem_iff_getElem.mp hr
    have hlen2 : i < (inputAfterCall df).rows.length := by
      rw [inputAfterCall_length]
      exact hi
    have hroweq : (inputAfterCall df).rows.getD i [] = df.rows.getD i [] := by
      rw [heq]
    have hmem : (inputAfterCall df).rows.getD i [] ∈ (inputAfterCall df).rows :=
      getD_mem hlen2 []
    have h1 := hlevels _ hmem
    rw [hroweq, getD_eq_getElem_of_lt df.rows [] hi, hri] at h1
    exact hrlev h1

theorem levelRank_eq_zero_iff (s : String) : levelRank s = 0 ↔ s = "Header" := by
  unfold levelRank
  by_cases h1 : s = "Header"
  · rw [if_pos h1]
    simp [h1]
  · rw [if_neg h1]
    by_cases h2 : s = "Lumpsum"
    · rw [if_pos h2]
      constructor
      · intro h
        omega
      · intro h
        exact absurd h h1
    · rw [if_neg h2]
      constructor
      · intro h
        omega
      · intro h
        exact absurd h h1

theorem levelRank_eq_one_iff (s : String) : levelRank s = 1 ↔ s = "Lumpsum" := by
  unfold levelRank
  by_cases h1 : s = "Header"
  · rw [if_pos h1]
    constructor
    · intro h
      omega
    · intro h
      rw [h1] at h
      exact absurd h (by decide)
  · rw [if_neg h1]
    by_cases h2 : s = "Lumpsum"
    · rw [if_pos h2]
      simp [h2]
    · rw [if_neg h2]
      constructor
      · intro h
        omega
      · intro h
        exact absurd h h2

theorem keyOf_eq_zero_iff (cols : List String) (r : List String) (v : String) :
    keyOf cols r = (v, 0) ↔
      (getCell cols r level_column = "Header"
        ∧ getCell cols r rebate_column = v) := by
  unfold keyOf
  rw [Prod.mk.injEq, levelRank_eq_zero_iff]
  constructor
  · intro h
    exact ⟨h.2, h.1⟩
  · intro h
    exact ⟨h.2, h.1⟩

theorem keyOf_eq_one_iff (cols : List String) (r : List String) (v : String) :
    keyOf cols r = (v, 1) ↔
      (getCell cols r level_column = "Lumpsum"
        ∧ getCell cols r rebate_column = v) := by
  unfold keyOf
  rw [Prod.mk.injEq, levelRank_eq_one_iff]
  constructor
  · intro h
    exact ⟨h.2, h.1⟩
  · intro h
    exact ⟨h.2, h.1⟩

theorem expandWith_merged_perm (df : Table) (hv : validate_columns df = [])
    (hwf : df.WF) :
    (expandWith (mkHeaderRow (normalizeDates df)) (lumpsFor df)
        (sortedKeys (normalizeDates df))).Perm
      ((headerTable (normalizeDates df)).rows ++ (inputAfterCall df).rows) := by
  rw [← canonicalRows_merged hv hwf, ← insertionSort_eq_canonical df.cols _ _
    (sortedKeys_nodup _) (sortedKeys_pairwise _) (merged_coverage hv hwf)]
  exact List.perm_insertionSort _ _

theorem expandWith_merged_sorted (df : Table) (hv : validate_columns df = [])
    (hwf : df.WF) :
    List.Sorted (rowLE df.cols)
      (expandWith (mkHeaderRow (normalizeDates df)) (lumpsFor df)
        (sortedKeys (normalizeDates df))) := by
  rw [← canonicalRows_merged hv hwf]
  exact sorted_canonicalRows df.cols _ _ (sortedKeys_pairwise _)

theorem filter_expandWith_merged (df : Table) (hv : validate_columns df = [])
    (hwf : df.WF) (k : String × Nat) :
    (expandWith (mkHeaderRow (normalizeDates df)) (lumpsFor df)
        (sortedKeys (normalizeDates df))).filter
      (fun r => decide (keyOf df.cols r = k))
      = ((headerTable (normalizeDates df)).rows
          ++ (inputAfterCall df).rows).filter
        (fun r => decide (keyOf df.cols r = k)) := by
  rw [← canonicalRows_merged hv hwf, ← insertionSort_eq_canonical df.cols _ _
    (sortedKeys_nodup _) (sortedKeys_pairwise _) (merged_coverage hv hwf)]
  exact filter_insertionSort df.cols k _

theorem expandWith_merged_length (df : Table) (hv : validate_columns df = [])
    (hwf : df.WF) :
    (expandWith (mkHeaderRow (normalizeDates df)) (lumpsFor df)
        (sortedKeys (normalizeDates df))).length
      = (sortedKeys (normalizeDates df)).length + df.rows.length := by
  obtain ⟨hreb, hlev⟩ := required_mem hv
  have hlev' : level_column ∈ (normalizeDates df).cols := by
    rw [normalizeDates_cols]
    exact hlev
  rw [(expandWith_merged_perm df hv hwf).length_eq, List.length_append,
    headerTable_rows hlev', List.length_map, inputAfterCall_length]

theorem filter_merged_at_zero {df : Table} (hv : validate_columns df = [])
    (hwf : df.WF) {v : String} (hvm : v ∈ rebateList df) :
    ((headerTable (normalizeDates df)).rows ++ (inputAfterCall df).rows).filter
        (fun r => decide (keyOf df.cols r = (v, 0)))
      = [mkHeaderRow (normalizeDates df) v] := by
  obtain ⟨hreb, hlev⟩ := required_mem hv
  have hlev' : level_column ∈ (normalizeDates df).cols := by
    rw [normalizeDates_cols]
    exact hlev
  have hwf' := normalizeDates_WF hwf
  have hcols := normalizeDates_cols df
  have hvk : v ∈ sortedKeys (normalizeDates df) := by
    rw [mem_sortedKeys, rebateList_normalizeDates df hwf]
    exact hvm
  rw [List.filter_append]
  have h0 : ((headerTable (normalizeDates df)).rows).filter
      (fun r => decide (keyOf df.cols r = (v, 0)))
      = [mkHeaderRow (normalizeDates df) v] := by
    rw [← hcols]
    exact filter_headerTable_at_zero hlev' hwf' hvk
  rw [h0, filter_inputAfterCall_ne_one hlev hwf (v, 0) (by omega),
    List.append_nil]

theorem filter_merged_at_one {df : Table} (hv : validate_columns df = [])
    (hwf : df.WF) (v : String) :
    ((headerTable (normalizeDates df)).rows ++ (inputAfterCall df).rows).filter
        (fun r => decide (keyOf df.cols r = (v, 1)))
      = lumpsFor df v := by
  obtain ⟨hreb, hlev⟩ := required_mem hv
  have hlev' : level_column ∈ (normalizeDates df).cols := by
    rw [normalizeDates_cols]
    exact hlev
  have hwf' := normalizeDates_WF hwf
  have hcols := normalizeDates_cols df
  rw [List.filter_append]
  have h1 : ((headerTable (normalizeDates df)).rows).filter
      (fun r => decide (keyOf df.cols r = (v, 1))) = [] := by
    rw [← hcols]
    exact filter_headerTable_ne_zero hlev' hwf' (v, 1) (by omega)
  rw [h1, filter_inputAfterCall_at_one hlev hwf v, List.nil_append]

theorem header_filter_eq {df : Table} (hv : validate_columns df = [])
    (hwf : df.WF) {v : String} (hvm : v ∈ rebateList df) :
    (expandWith (mkHeaderRow (normalizeDates df)) (lumpsFor df)
        (sortedKeys (normalizeDates df))).filter
      (fun r => decide (getCell df.cols r level_column = "Header"
        ∧ getCell df.cols r rebate_column = v))
      = [mkHeaderRow (normalizeDates df) v] := by
  have hcongr : ∀ r ∈ expandWith (mkHeaderRow (normalizeDates df)) (lumpsFor df)
      (sortedKeys (normalizeDates df)),
      (decide (getCell df.cols r level_column = "Header"
        ∧ getCell df.cols r rebate_column = v))
        = decide (keyOf df.cols r = (v, 0)) := by
    intro r _
    apply decide_eq_decide.mpr
    exact (keyOf_eq_zero_iff df.cols r v).symm
  rw [List.filter_congr hcongr, filter_expandWith_merged df hv hwf,
    filter_merged_at_zero hv hwf hvm]

theorem lumps_filter_eq {df : Table} (hv : validate_columns df = [])
    (hwf : df.WF) (v : String) :
    (expandWith (mkHeaderRow (normalizeDates df)) (lumpsFor df)
        (sortedKeys (normalizeDates df))).filter
      (fun r => decide (getCell df.cols r level_column = "Lumpsum"
        ∧ getCell df.cols r rebate_column = v))
      = lumpsFor df v := by
  have hcongr : ∀ r ∈ expandWith (mkHeaderRow (normalizeDates df)) (lumpsFor df)
      (sortedKeys (normalizeDates df)),
      (decide (getCell df.cols r level_column = "Lumpsum"
        ∧ getCell df.cols r rebate_column = v))
        = decide (keyOf df.cols r = (v, 1)) := by
    intro r _
    apply decide_eq_decide.mpr
    exact (keyOf_eq_one_iff df.cols r v).symm
  rw [List.filter_congr hcongr, filter_expandWith_merged df hv hwf,
    filter_merged_at_one hv hwf v]

theorem strLt_empty_right (a : String) : strLt a "" = false := by
  unfold strLt
  show charsLt a.toList [] = false
  cases a.toList with
  | nil => rfl
  | cons x xs => rfl

theorem head_eq_empty_of_mem {keys : List String}
    (hp : keys.Pairwise (fun a b => strLt a b = true)) (h : "" ∈ keys) :
    ∃ ks, keys = "" :: ks := by
  cases keys with
  | nil => cases h
  | cons k ks =>
    rcases List.mem_cons.mp h with hk | hmem
    · exact ⟨ks, by rw [hk]⟩
    · exfalso
      have hlt := (List.pairwise_cons.mp hp).1 _ hmem
      rw [strLt_empty_right] at hlt
      exact Bool.noConfusion hlt

/-- Closed witness for C10: the example table is genuinely mutated. -/
theorem input_mutation_spec_witness :
    (inputAfterCall exampleTable).cols = exampleTable.cols ∧
    inputAfterCall exampleTable ≠ exampleTable := by
  have h := input_mutation_spec exampleTable (by decide) (by decide)
  refine ⟨h.1, h.2.2.2.2 ?_⟩
  exact ⟨["X", "", "Flat", "100", "NY", "1/2/2024", "2/1/2024"], by decide,
    by decide⟩

/-- C7 counterexample: a table that passes column validation but carries an
extra column named `_level_sort` collides with the engine's scratch column:
the original data column is overwritten and dropped, and the final reindex to
the original column list raises `KeyError` (modelled as `none`).  No output
table exists for this valid input, so the claim that every valid input yields
an output with identical column order is false. -/
theorem column_order_counterexample :
    validate_columns exampleScratchCol = [] ∧
    exampleScratchCol.cols.Nodup ∧
    exampleScratchCol.WF ∧
    process_dataframe exampleScratchCol = none := by
  refine ⟨by decide, by decide, by decide, by decide⟩

/-- C7 amended: for every valid input table with no column named
`_level_sort` (the engine's reserved scratch label) — extra columns in any
other position and with any other names allowed — the output table's column
order equals the input table's column order exactly. -/
theorem column_order_spec (df : Table) (hv : validate_columns df = [])
    (hnd : df.cols.Nodup) (hwf : df.WF) (hsc : LEVEL_SORT_COL ∉ df.cols) :
    ∃ out m, process_dataframe df = some (out, m) ∧ out.cols = df.cols :=
  ⟨_, _, process_spec df hv hnd hwf hsc, rfl⟩

/-- Closed witness for C7 amended at a concrete table with an extra column. -/
theorem column_order_spec_witness :
    ∃ out m, process_dataframe
        ⟨["Extra A", "Rebate Name", "Level", "Lumpsum - Fee Type",
          "Lumpsum - Amount", "Lumpsum - Branch", "Lumpsum - Lumpsum Date",
          "Lumpsum - Pay Date", "Extra B"],
         [["e1", "X", "", "", "", "", "", "", "e2"]]⟩ = some (out, m) ∧
      out.cols = ["Extra A", "Rebate Name", "Level", "Lumpsum - Fee Type",
        "Lumpsum - Amount", "Lumpsum - Branch", "Lumpsum - Lumpsum Date",
        "Lumpsum - Pay Date", "Extra B"] :=
  column_order_spec _ (by decide) (by decide) (by decide) (by decide)

/-- C2 counterexample: grouping-key values appear in input order B, A, B, C,
yet the output's header rows appear in lexicographically ascending order
A, B, C — not in first-seen order B, A, C as the claim states. -/
theorem header_order_counterexample :
    validate_columns exampleBABC = [] ∧
    rebateList exampleBABC = ["B", "A", "B", "C"] ∧
    (match process_dataframe exampleBABC with
     | some (out, _) => headerRebates out
     | none => []) = ["A", "B", "C"] ∧
    ¬ (match process_dataframe exampleBABC with
       | some (out, _) => headerRebates out
       | none => []) = ["B", "A", "C"] := by
  refine ⟨by decide, by decide, by decide, by decide⟩

/-- C2 amended: header rows appear in the output in ascending lexicographic
order of the grouping-key value (the sort of line 108; the code comment at
line 104 says "Keep Rebate Name ascending"), not in first-seen order; each
header row is immediately followed by its group's lumpsum rows in their
original relative order. -/
theorem header_order_spec (df : Table) (hv : validate_columns df = [])
    (hnd : df.cols.Nodup) (hwf : df.WF) (hsc : LEVEL_SORT_COL ∉ df.cols) :
    ∃ out m, process_dataframe df = some (out, m) ∧
      ∃ keys : List String,
        keys.Pairwise (fun a b => strLt a b = true) ∧
        (∀ v, v ∈ keys ↔ v ∈ rebateList df) ∧
        out.rows = expandWith (mkHeaderRow (normalizeDates df)) (lumpsFor df)
          keys ∧
        ∀ v ∈ keys,
          getCell df.cols (mkHeaderRow (normalizeDates df) v) level_column
              = "Header" ∧
          getCell df.cols (mkHeaderRow (normalizeDates df) v) rebate_column
              = v := by
  obtain ⟨hreb, hlev⟩ := required_mem hv
  have hlev' : level_column ∈ (normalizeDates df).cols := by
    rw [normalizeDates_cols]
    exact hlev
  have hwf' := normalizeDates_WF hwf
  have hcols := normalizeDates_cols df
  refine ⟨_, _, process_spec df hv hnd hwf hsc,
    sortedKeys (normalizeDates df), sortedKeys_pairwise _, ?_, rfl, ?_⟩
  · intro v
    rw [mem_sortedKeys, rebateList_normalizeDates df hwf]
  · intro v hvk
    have hvm : v ∈ rebateList (normalizeDates df) := mem_sortedKeys.mp hvk
    constructor
    · rw [← hcols]
      exact mkHeaderRow_level hvm hlev' hwf'
    · rw [← hcols]
      exact mkHeaderRow_rebate hvm hlev' hwf'

/-- Closed witness for C2 amended at the B, A, B, C table. -/
theorem header_order_spec_witness :
    ∃ out m, process_dataframe exampleBABC = some (out, m) ∧
      ∃ keys : List String,
        keys.Pairwise (fun a b => strLt a b = true) ∧
        (∀ v, v ∈ keys ↔ v ∈ rebateList exampleBABC) ∧
        out.rows = expandWith (mkHeaderRow (normalizeDates exampleBABC))
          (lumpsFor exampleBABC) keys ∧
        ∀ v ∈ keys,
          getCell exampleBABC.cols
              (mkHeaderRow (normalizeDates exampleBABC) v) level_column
              = "Header" ∧
          getCell exampleBABC.cols
              (mkHeaderRow (normalizeDates exampleBABC) v) rebate_column
              = v :=
  header_order_spec exampleBABC (by decide) (by decide) (by decide) (by decide)

/-- C3: the metrics record of a successful run reports the input row count,
the distinct grouping-key count (missing values included as the empty-string
bucket), a header count equal to the distinct count, a lumpsum count equal to
the input row count, and an output row count equal to header count plus
lumpsum count, which is also the actual row count of the returned table. -/
theorem metrics_spec (df : Table) (hv : validate_columns df = [])
    (hnd : df.cols.Nodup) (hwf : df.WF) (hsc : LEVEL_SORT_COL ∉ df.cols) :
    ∃ out m, process_dataframe df = some (out, m) ∧
      m.input_rows = df.rows.length ∧
      m.distinct_rebates = (rebateList df).dedup.length ∧
      m.header_count = m.distinct_rebates ∧
      m.lumpsum_count = m.input_rows ∧
      m.output_rows = m.header_count + m.lumpsum_count ∧
      m.output_rows = out.rows.length := by
  refine ⟨_, _, process_spec df hv hnd hwf hsc, rfl, rfl, ?_, rfl, rfl, ?_⟩
  · show (sortedKeys (normalizeDates df)).length = (rebateList df).dedup.length
    rw [sortedKeys_length, rebateList_normalizeDates df hwf]
  · show (sortedKeys (normalizeDates df)).length + df.rows.length = _
    rw [expandWith_merged_length df hv hwf]

/-- Closed witness for C3 at the spec's concrete scenario (3 input rows, 2
distinct grouping keys, 5 output rows). -/
theorem metrics_spec_witness :
    ∃ out m, process_dataframe exampleTable = some (out, m) ∧
      m.input_rows = 3 ∧ m.distinct_rebates = 2 ∧ m.header_count = 2 ∧
      m.lumpsum_count = 3 ∧ m.output_rows = 5 ∧ m.output_rows = out.rows.length := by
  obtain ⟨out, m, hp, h1, h2, h3, h4, h5, h6⟩ :=
    metrics_spec exampleTable (by decide) (by decide) (by decide) (by decide)
  refine ⟨out, m, hp, ?_, ?_, ?_, ?_, ?_, h6⟩
  · rw [h1]
    decide
  · rw [h2]
    decide
  · rw [h3, h2]
    decide
  · rw [h4, h1]
    decide
  · rw [h5, h3, h4, h2, h1]
    decide

theorem getCell_firstRowOf_normalizeDates (df : Table) (c : String)
    (hc : c ∉ DATE_COLUMNS) :
    getCell df.cols (firstRowOf (normalizeDates df) v) c
      = getCell df.cols (firstRowOf df v) c := by
  unfold firstRowOf
  rw [normalizeDates_cols]
  unfold normalizeDates
  rw [setColumns_rows]
  rw [List.find?_map]
  have hfun : ((fun r => getCell df.cols r rebate_column == v) ∘
      applyCols normalizeCell DATE_COLUMNS df.cols)
      = (fun r => getCell df.cols r rebate_column == v) := by
    funext r
    show (getCell df.cols (applyCols normalizeCell DATE_COLUMNS df.cols r)
      rebate_column == v) = _
    rw [getCell_applyCols_not_mem normalizeCell df.cols DATE_COLUMNS
      (by decide) r]
  rw [hfun]
  cases hf : df.rows.find? (fun r => getCell df.cols r rebate_column == v) with
  | none => rfl
  | some r0 =>
    show getCell df.cols (applyCols normalizeCell DATE_COLUMNS df.cols r0) c
      = getCell df.cols r0 c
    exact getCell_applyCols_not_mem normalizeCell df.cols DATE_COLUMNS hc r0

theorem header_before_lumpsum (df : Table) (hv : validate_columns df = [])
    (hwf : df.WF) :
    ∀ i, i < (expandWith (mkHeaderRow (normalizeDates df)) (lumpsFor df)
        (sortedKeys (normalizeDates df))).length →
      getCell df.cols ((expandWith (mkHeaderRow (normalizeDates df))
        (lumpsFor df) (sortedKeys (normalizeDates df))).getD i []) level_column
        = "Lumpsum" →
      ∃ j, j < i ∧
        getCell df.cols ((expandWith (mkHeaderRow (normalizeDates df))
          (lumpsFor df) (sortedKeys (normalizeDates df))).getD j [])
          level_column = "Header" ∧
        getCell df.cols ((expandWith (mkHeaderRow (normalizeDates df))
          (lumpsFor df) (sortedKeys (normalizeDates df))).getD j [])
          rebate_column
          = getCell df.cols ((expandWith (mkHeaderRow (normalizeDates df))
            (lumpsFor df) (sortedKeys (normalizeDates df))).getD i [])
            rebate_column := by
  obtain ⟨hreb, hlev⟩ := required_mem hv
  have hlev' : level_column ∈ (normalizeDates df).cols := by
    rw [normalizeDates_cols]
    exact hlev
  have hwf' := normalizeDates_WF hwf
  have hcols := normalizeDates_cols df
  set E := expandWith (mkHeaderRow (normalizeDates df)) (lumpsFor df)
    (sortedKeys (normalizeDates df)) with hE
  intro i hi hlumpi
  rw [getD_eq_getElem_of_lt E [] hi] at hlumpi
  set v := getCell df.cols (E[i]) rebate_column with hvdef
  have hmemE : E[i] ∈ E := List.getElem_mem _
  have hmemM := (expandWith_merged_perm df hv hwf).subset hmemE
  have hvm : v ∈ rebateList df := by
    rcases List.mem_append.mp hmemM with hh | hl
    · exfalso
      rw [headerTable_rows hlev'] at hh
      rw [List.mem_map] at hh
      obtain ⟨w, hw, heq⟩ := hh
      have hlevH : getCell df.cols (E[i]) level_column = "Header" := by
        rw [← heq, ← hcols]
        exact mkHeaderRow_level (mem_sortedKeys.mp hw) hlev' hwf'
      rw [hlumpi] at hlevH
      exact absurd hlevH (by decide)
    · have hmem2 : v ∈ rebateList (inputAfterCall df) := by
        rw [hvdef]
        unfold rebateList
        rw [inputAfterCall_cols hlev]
        exact List.mem_map_of_mem _ hl
      rw [rebateList_inputAfterCall df hlev hwf] at hmem2
      exact hmem2
  have hvm' : v ∈ rebateList (normalizeDates df) := by
    rw [rebateList_normalizeDates df hwf]
    exact hvm
  have hrebhdr : getCell df.cols (mkHeaderRow (normalizeDates df) v)
      rebate_column = v := by
    rw [← hcols]
    exact mkHeaderRow_rebate hvm' hlev' hwf'
  have hlevhdr : getCell df.cols (mkHeaderRow (normalizeDates df) v)
      level_column = "Header" := by
    rw [← hcols]
    exact mkHeaderRow_level hvm' hlev' hwf'
  have hkeyhdr : keyOf df.cols (mkHeaderRow (normalizeDates df) v) = (v, 0) := by
    rw [← hcols]
    exact keyOf_mkHeaderRow hvm' hlev' hwf'
  have hf : E.filter (fun r => decide (keyOf df.cols r = (v, 0)))
      = [mkHeaderRow (normalizeDates df) v] := by
    rw [hE, filter_expandWith_merged df hv hwf, filter_merged_at_zero hv hwf hvm]
  have hhdr_mem : mkHeaderRow (normalizeDates df) v ∈ E := by
    have hmm : mkHeaderRow (normalizeDates df) v
        ∈ E.filter (fun r => decide (keyOf df.cols r = (v, 0))) := by
      rw [hf]
      exact List.mem_cons_self _ _
    exact (List.mem_filter.mp hmm).1
  obtain ⟨j, hj, hje⟩ := List.mem_iff_getElem.mp hhdr_mem
  have hkey_j : keyOf df.cols (E[j]) = (v, 0) := by
    rw [hje]
    exact hkeyhdr
  have hkey_i : keyOf df.cols (E[i]) = (v, 1) := by
    unfold keyOf
    rw [hlumpi, ← hvdef, show levelRank "Lumpsum" = 1 from by decide]
  have hji : j < i := by
    rcases Nat.lt_trichotomy j i with h | h | h
    · exact h
    · exfalso
      subst h
      have hcontra := hkey_j.symm.trans hkey_i
      have hsnd := congrArg Prod.snd hcontra
      simp at hsnd
    · exfalso
      have hsorted := expandWith_merged_sorted df hv hwf
      have hpw := List.pairwise_iff_getElem.mp hsorted i j hi hj h
      unfold rowLE at hpw
      rw [hkey_i, hkey_j] at hpw
      rcases hpw with hlt | ⟨heq2, hle2⟩
      · rw [strLt_irrefl] at hlt
        exact Bool.noConfusion hlt
      · omega
  refine ⟨j, hji, ?_, ?_⟩
  · rw [getD_eq_getElem_of_lt E [] hj, hje]
    exact hlevhdr
  · rw [getD_eq_getElem_of_lt E [] hj, hje,
      getD_eq_getElem_of_lt E [] hi, hrebhdr]

/-- C1: on every valid input, the output has exactly one Header-tier row per
distinct grouping-key value; that Header row appears at an earlier position
than every Lumpsum row sharing its grouping-key value; and the Lumpsum rows
of each grouping-key value are exactly that group's (retagged,
date-normalized) input rows in their original relative order. -/
theorem header_tier_invariant (df : Table) (hv : validate_columns df = [])
    (hnd : df.cols.Nodup) (hwf : df.WF) (hsc : LEVEL_SORT_COL ∉ df.cols) :
    ∃ out m, process_dataframe df = some (out, m) ∧
      (∀ v ∈ (rebateList df).dedup,
        out.rows.countP (fun r =>
          decide (getCell df.cols r level_column = "Header"
            ∧ getCell df.cols r rebate_column = v)) = 1) ∧
      (∀ i, i < out.rows.length →
        getCell df.cols (out.rows.getD i []) level_column = "Lumpsum" →
        ∃ j, j < i ∧
          getCell df.cols (out.rows.getD j []) level_column = "Header" ∧
          getCell df.cols (out.rows.getD j []) rebate_column
            = getCell df.cols (out.rows.getD i []) rebate_column) ∧
      (∀ v, out.rows.filter (fun r =>
          decide (getCell df.cols r level_column = "Lumpsum"
            ∧ getCell df.cols r rebate_column = v)) = lumpsFor df v) := by
  refine ⟨_, _, process_spec df hv hnd hwf hsc, ?_, ?_, ?_⟩
  · intro v hvd
    have hvm : v ∈ rebateList df := List.mem_dedup.mp hvd
    show (expandWith (mkHeaderRow (normalizeDates df)) (lumpsFor df)
      (sortedKeys (normalizeDates df))).countP _ = 1
    rw [List.countP_eq_length_filter, header_filter_eq hv hwf hvm]
    rfl
  · exact header_before_lumpsum df hv hwf
  · intro v
    exact lumps_filter_eq hv hwf v

/-- Closed witness for C1 at the spec's concrete scenario table. -/
theorem header_tier_invariant_witness :
    ∃ out m, process_dataframe exampleTable = some (out, m) ∧
      (∀ v ∈ (rebateList exampleTable).dedup,
        out.rows.countP (fun r =>
          decide (getCell exampleTable.cols r level_column = "Header"
            ∧ getCell exampleTable.cols r rebate_column = v)) = 1) ∧
      (∀ i, i < out.rows.length →
        getCell exampleTable.cols (out.rows.getD i []) level_column
          = "Lumpsum" →
        ∃ j, j < i ∧
          getCell exampleTable.cols (out.rows.getD j []) level_column
            = "Header" ∧
          getCell exampleTable.cols (out.rows.getD j []) rebate_column
            = getCell exampleTable.cols (out.rows.getD i []) rebate_column) ∧
      (∀ v, out.rows.filter (fun r =>
          decide (getCell exampleTable.cols r level_column = "Lumpsum"
            ∧ getCell exampleTable.cols r rebate_column = v))
          = lumpsFor exampleTable v) :=
  header_tier_invariant exampleTable (by decide) (by decide) (by decide)
    (by decide)

/-- C6: every synthetic Header row equals the first input row of its group
except that the tier column holds `Header` and each of the five detail-only
columns holds the empty string; every other column of the header row —
including extra columns beyond the required contract — carries the group's
first row's value. -/
theorem header_content_spec (df : Table) (hv : validate_columns df = [])
    (hnd : df.cols.Nodup) (hwf : df.WF) (hsc : LEVEL_SORT_COL ∉ df.cols) :
    ∃ out m, process_dataframe df = some (out, m) ∧
      ∀ v ∈ (rebateList df).dedup, ∃ h,
        out.rows.filter (fun r =>
          decide (getCell df.cols r level_column = "Header"
            ∧ getCell df.cols r rebate_column = v)) = [h] ∧
        ∀ c ∈ df.cols, getCell df.cols h c =
          if c = level_column then "Header"
          else if c ∈ LUMPSUM_COLUMNS then ""
          else getCell df.cols (firstRowOf df v) c := by
  obtain ⟨hreb, hlev⟩ := required_mem hv
  have hlev' : level_column ∈ (normalizeDates df).cols := by
    rw [normalizeDates_cols]
    exact hlev
  have hwf' := normalizeDates_WF hwf
  have hcols := normalizeDates_cols df
  refine ⟨_, _, process_spec df hv hnd hwf hsc, ?_⟩
  intro v hvd
  have hvm : v ∈ rebateList df := List.mem_dedup.mp hvd
  have hvm' : v ∈ rebateList (normalizeDates df) := by
    rw [rebateList_normalizeDates df hwf]
    exact hvm
  refine ⟨mkHeaderRow (normalizeDates df) v, header_filter_eq hv hwf hvm, ?_⟩
  intro c hc
  have hcell := getCell_mkHeaderRow hvm' hlev' hwf' c
  rw [hcols] at hcell
  rw [hcell]
  by_cases h1 : c = level_column
  · rw [if_pos h1, if_pos h1]
  · rw [if_neg h1, if_neg h1]
    by_cases h2 : c ∈ LUMPSUM_COLUMNS
    · rw [if_pos ⟨h2, hc⟩, if_pos h2]
    · rw [if_neg (fun hand => h2 hand.1), if_neg h2]
      have hcd : c ∉ DATE_COLUMNS := fun hmem =>
        h2 ((by decide : ∀ x ∈ DATE_COLUMNS, x ∈ LUMPSUM_COLUMNS) c hmem)
      exact getCell_firstRowOf_normalizeDates df c hcd

/-- Closed witness for C6 at the spec's concrete scenario table. -/
theorem header_content_spec_witness :
    ∃ out m, process_dataframe exampleTable = some (out, m) ∧
      ∀ v ∈ (rebateList exampleTable).dedup, ∃ h,
        out.rows.filter (fun r =>
          decide (getCell exampleTable.cols r level_column = "Header"
            ∧ getCell exampleTable.cols r rebate_column = v)) = [h] ∧
        ∀ c ∈ exampleTable.cols, getCell exampleTable.cols h c =
          if c = level_column then "Header"
          else if c ∈ LUMPSUM_COLUMNS then ""
          else getCell exampleTable.cols (firstRowOf exampleTable v) c :=
  header_content_spec exampleTable (by decide) (by decide) (by decide)
    (by decide)

def exampleEmptyKey : Table :=
  ⟨["Rebate Name", "Level", "Lumpsum - Fee Type", "Lumpsum - Amount",
    "Lumpsum - Branch", "Lumpsum - Lumpsum Date", "Lumpsum - Pay Date"],
   [["", "", "Flat", "1", "NY", "", ""],
    ["Z", "", "Flat", "2", "LA", "", ""],
    ["", "", "Pct", "3", "SF", "", ""]]⟩

/-- C8: all rows whose grouping-key value is missing or empty (the empty
string under the all-text ingestion contract) form one combined group: one
bucket in the distinct count, exactly one Header row, and they participate in
sorting as the empty-string value — sorting first, the call succeeding rather
than raising. -/
theorem empty_key_spec (df : Table) (hv : validate_columns df = [])
    (hnd : df.cols.Nodup) (hwf : df.WF) (hsc : LEVEL_SORT_COL ∉ df.cols)
    (hempty : "" ∈ rebateList df) :
    ∃ out m, process_dataframe df = some (out, m) ∧
      (rebateList df).dedup.count "" = 1 ∧
      out.rows.countP (fun r =>
        decide (getCell df.cols r level_column = "Header"
          ∧ getCell df.cols r rebate_column = "")) = 1 ∧
      out.rows ≠ [] ∧
      getCell df.cols (out.rows.getD 0 []) rebate_column = "" ∧
      getCell df.cols (out.rows.getD 0 []) level_column = "Header" := by
  obtain ⟨hreb, hlev⟩ := required_mem hv
  have hlev' : level_column ∈ (normalizeDates df).cols := by
    rw [normalizeDates_cols]
    exact hlev
  have hwf' := normalizeDates_WF hwf
  have hcols := normalizeDates_cols df
  have hvm' : "" ∈ rebateList (normalizeDates df) := by
    rw [rebateList_normalizeDates df hwf]
    exact hempty
  have hkmem : "" ∈ sortedKeys (normalizeDates df) := mem_sortedKeys.mpr hvm'
  obtain ⟨ks, hks⟩ := head_eq_empty_of_mem (sortedKeys_pairwise _) hkmem
  have hcount : (rebateList df).dedup.count "" = 1 := by
    have hpos := List.count_pos_iff_mem.mpr
      (List.mem_dedup.mpr hempty)
    have hle : ((rebateList df).dedup).count "" ≤ 1 :=
      List.nodup_iff_count_le_one.mp (List.nodup_dedup _) ""
    omega
  refine ⟨_, _, process_spec df hv hnd hwf hsc, hcount, ?_, ?_, ?_, ?_⟩
  · show (expandWith (mkHeaderRow (normalizeDates df)) (lumpsFor df)
      (sortedKeys (normalizeDates df))).countP _ = 1
    rw [List.countP_eq_length_filter, header_filter_eq hv hwf hempty]
    rfl
  · show expandWith (mkHeaderRow (normalizeDates df)) (lumpsFor df)
      (sortedKeys (normalizeDates df)) ≠ []
    rw [hks]
    exact List.cons_ne_nil _ _
  · show getCell df.cols ((expandWith (mkHeaderRow (normalizeDates df))
      (lumpsFor df) (sortedKeys (normalizeDates df))).getD 0 []) rebate_column
      = ""
    rw [hks]
    show getCell df.cols (mkHeaderRow (normalizeDates df) "") rebate_column = ""
    rw [← hcols]
    exact mkHeaderRow_rebate hvm' hlev' hwf'
  · show getCell df.cols ((expandWith (mkHeaderRow (normalizeDates df))
      (lumpsFor df) (sortedKeys (normalizeDates df))).getD 0 []) level_column
      = "Header"
    rw [hks]
    show getCell df.cols (mkHeaderRow (normalizeDates df) "") level_column
      = "Header"
    rw [← hcols]
    exact mkHeaderRow_level hvm' hlev' hwf'

/-- Closed witness for C8 at a table with two empty-key rows. -/
theorem empty_key_spec_witness :
    ∃ out m, process_dataframe exampleEmptyKey = some (out, m) ∧
      (rebateList exampleEmptyKey).dedup.count "" = 1 ∧
      out.rows.countP (fun r =>
        decide (getCell exampleEmptyKey.cols r level_column = "Header"
          ∧ getCell exampleEmptyKey.cols r rebate_column = "")) = 1 ∧
      out.rows ≠ [] ∧
      getCell exampleEmptyKey.cols (out.rows.getD 0 []) rebate_column = "" ∧
      getCell exampleEmptyKey.cols (out.rows.getD 0 []) level_column
        = "Header" :=
  empty_key_spec exampleEmptyKey (by decide) (by decide) (by decide)
    (by decide) (by decide)

end RebateFormatter
